import Mathlib

/-!
# Verification of the page_translate middleware core

Shallow embedding of the coordination components of
`src/chatgpt/server/server.py` (the authoritative source variant named by the
claims): the TTL+LRU `TranslationCache`, the token-bucket `RateLimiter`, the
`AuthFailureLimiter`, the incremental `StreamingJSONArrayParser`, and the
`translate` / `stream_translations` request flow.

Modelling conventions:
* Python floats (timestamps, token counts, rates) are modelled as exact
  rationals `ℚ`; the algorithms use only `+ - * / min` and comparisons, so the
  rational model follows the source arithmetic exactly.
* `time.time()` is passed in explicitly as a `now : ℚ` argument at each call
  that reads the clock.
* Python `dict` / `OrderedDict` are modelled as association lists in insertion
  order (front = oldest = LRU end, back = newest = MRU end).
* Python `str` is modelled as `List Char`.
* `asyncio.Lock` bodies execute atomically; each public operation is one
  atomic state transition (the lock has no timeout in the source).
-/

/-- Association-list lookup; models Python `d[k]` / `k in d`. -/
def getKey {α β : Type} [DecidableEq α] : List (α × β) → α → Option β
  | [], _ => none
  | (a, b) :: t, k => if a = k then some b else getKey t k

/-- Association-list update; models Python `d[k] = v` (in-place if the key is
present, appended at the insertion-order end otherwise). -/
def putKey {α β : Type} [DecidableEq α] : List (α × β) → α → β → List (α × β)
  | [], k, v => [(k, v)]
  | (a, b) :: t, k, v => if a = k then (k, v) :: t else (a, b) :: putKey t k v

/-- Association-list removal; models Python `del d[k]` / `d.pop(k, None)`
(reachable dictionaries have unique keys, so removing every occurrence
coincides with removing the single one). -/
def eraseKey {α β : Type} [DecidableEq α] : List (α × β) → α → List (α × β)
  | [], _ => []
  | (a, b) :: t, k => if a = k then eraseKey t k else (a, b) :: eraseKey t k

theorem getKey_putKey_self {α β : Type} [DecidableEq α]
    (l : List (α × β)) (k : α) (v : β) : getKey (putKey l k v) k = some v := by
  induction l with
  | nil => simp [putKey, getKey]
  | cons p t ih =>
    by_cases h : p.1 = k
    · simp [putKey, getKey, h]
    · simp [putKey, getKey, h, ih]

theorem getKey_eraseKey_self {α β : Type} [DecidableEq α]
    (l : List (α × β)) (k : α) : getKey (eraseKey l k) k = none := by
  induction l with
  | nil => simp [eraseKey, getKey]
  | cons p t ih =>
    by_cases h : p.1 = k
    · simp [eraseKey, h, ih]
    · simp [eraseKey, getKey, h, ih]

theorem eraseKey_of_getKey_none {α β : Type} [DecidableEq α]
    (l : List (α × β)) (k : α) (h : getKey l k = none) : eraseKey l k = l := by
  induction l with
  | nil => rfl
  | cons p t ih =>
    by_cases hp : p.1 = k
    · simp [getKey, hp] at h
    · simp [getKey, hp] at h
      simp [eraseKey, hp, ih h]

theorem length_eraseKey_le {α β : Type} [DecidableEq α]
    (l : List (α × β)) (k : α) : (eraseKey l k).length ≤ l.length := by
  induction l with
  | nil => simp [eraseKey]
  | cons p t ih =>
    by_cases hp : p.1 = k
    · simp [eraseKey, hp]; omega
    · simp [eraseKey, hp]; omega

theorem length_eraseKey_of_getKey_some {α β : Type} [DecidableEq α]
    (l : List (α × β)) (k : α) (v : β) (h : getKey l k = some v) :
    (eraseKey l k).length + 1 ≤ l.length := by
  induction l with
  | nil => simp [getKey] at h
  | cons p t ih =>
    by_cases hp : p.1 = k
    · have := length_eraseKey_le t k
      simp [eraseKey, hp]
      omega
    · simp [getKey, hp] at h
      have := ih h
      simp [eraseKey, hp]
      omega

theorem getKey_append_of_none {α β : Type} [DecidableEq α]
    (l m : List (α × β)) (k : α) (h : getKey l k = none) :
    getKey (l ++ m) k = getKey m k := by
  induction l with
  | nil => rfl
  | cons p t ih =>
    by_cases hp : p.1 = k
    · simp [getKey, hp] at h
    · simp [getKey, hp] at h ⊢
      exact ih h

/-! ## TranslationCache (server.py:113-159)

Bounded TTL+LRU cache over an `OrderedDict`.  The cache key is
`sha256(json.dumps({"t": texts, "l": lang, "m": model}, sort_keys=True))`
(server.py:122-124); the digest is injective on the modelled domain, so the key
is modelled as the canonical triple itself. -/

abbrev CacheKey := List String × String × String

/-- Models `TranslationCache._key` (server.py:122-124). -/
def cacheKey (texts : List String) (lang model : String) : CacheKey :=
  (texts, lang, model)

/-- One `OrderedDict` value: `{"data": translations, "ts": time.time()}`. -/
structure CacheEntry where
  data : List String
  ts : ℚ
deriving DecidableEq

structure TranslationCache where
  max_size : Nat
  ttl : Nat
  cache : List (CacheKey × CacheEntry)
  hits : Nat
  misses : Nat
deriving DecidableEq

/-- Models `TranslationCache.__init__` (server.py:114-120). -/
def initCache (ms ttl : Nat) : TranslationCache :=
  ⟨ms, ttl, [], 0, 0⟩

/-- Models the `while len(self._cache) > self.max_size: self._cache.popitem(last=False)`
loop of `TranslationCache.set` (server.py:146-147): pop from the front
(oldest / LRU end) until within bound. -/
def evictLRU {γ : Type} (m : Nat) : List γ → List γ
  | [] => []
  | x :: t => if m < t.length + 1 then evictLRU m t else x :: t

theorem length_evictLRU_le {γ : Type} (m : Nat) (l : List γ) :
    (evictLRU m l).length ≤ m := by
  induction l with
  | nil => simp [evictLRU]
  | cons x t ih =>
    by_cases h : m < t.length + 1
    · simpa [evictLRU, h] using ih
    · simp [evictLRU, h]
      omega

theorem evictLRU_of_length_le {γ : Type} (m : Nat) (l : List γ)
    (h : l.length ≤ m) : evictLRU m l = l := by
  cases l with
  | nil => rfl
  | cons x t =>
    have : ¬ m < t.length + 1 := by simp at h; omega
    simp [evictLRU, this]

/-- Models `TranslationCache.get` (server.py:126-137).  Returns the Python
return value together with the post-state.  On a fresh hit the entry is moved
to the MRU end and `_hits` is bumped; an expired entry is deleted and the call
falls through to a miss. -/
def TranslationCache.get (c : TranslationCache) (texts : List String)
    (lang model : String) (now : ℚ) :
    Option (List String) × TranslationCache :=
  let key := cacheKey texts lang model
  match getKey c.cache key with
  | some e =>
    if now - e.ts < (c.ttl : ℚ) then
      (some e.data,
        { c with cache := eraseKey c.cache key ++ [(key, e)], hits := c.hits + 1 })
    else
      (none, { c with cache := eraseKey c.cache key, misses := c.misses + 1 })
  | none => (none, { c with misses := c.misses + 1 })

/-- Models `TranslationCache.set` (server.py:139-147): insert/replace at the
MRU end, then evict from the LRU end while over `max_size`. -/
def TranslationCache.set (c : TranslationCache) (texts : List String)
    (lang model : String) (translations : List String) (now : ℚ) :
    TranslationCache :=
  let key := cacheKey texts lang model
  { c with cache :=
      evictLRU c.max_size (eraseKey c.cache key ++ [(key, ⟨translations, now⟩)]) }

/-- Value type of one field of the `stats()` dictionary.  The hit rate is kept
as the exact ratio `hits / (hits + misses) * 100`; the source renders it with
`f"{hit_rate:.1f}%"`, a formatting step not modelled. -/
inductive StatVal where
  | num (n : Nat)
  | pct (q : ℚ)
deriving DecidableEq

/-- Models `TranslationCache.stats` (server.py:149-159): the returned
dictionary, as an ordered field list. -/
def TranslationCache.stats (c : TranslationCache) : List (String × StatVal) :=
  [("size", .num c.cache.length),
   ("max_size", .num c.max_size),
   ("hits", .num c.hits),
   ("misses", .num c.misses),
   ("hit_rate", .pct (if 0 < c.hits + c.misses then
      (c.hits : ℚ) / ((c.hits : ℚ) + (c.misses : ℚ)) * 100 else 0))]

/-- One public cache operation, for stating trace invariants. -/
inductive CacheOp where
  | put (texts : List String) (lang model : String)
      (translations : List String) (now : ℚ)
  | get (texts : List String) (lang model : String) (now : ℚ)

def applyOp (c : TranslationCache) : CacheOp → TranslationCache
  | .put texts lang model translations now => c.set texts lang model translations now
  | .get texts lang model now => (c.get texts lang model now).2

def runOps (c : TranslationCache) (ops : List CacheOp) : TranslationCache :=
  ops.foldl applyOp c

/-! ## RateLimiter (server.py:170-203)

Per-client token bucket.  `rate = rpm / 60.0`; unseen clients are initialized
to a full bucket of `burst` tokens. -/

structure RateLimiter where
  rate : ℚ
  burst : ℚ
  tokens : List (String × ℚ)
  last : List (String × ℚ)
deriving DecidableEq

/-- Models `RateLimiter.__init__` (server.py:171-176). -/
def RateLimiter.ofConfig (rpm burst : Nat) : RateLimiter :=
  ⟨(rpm : ℚ) / 60, (burst : ℚ), [], []⟩

/-- Models `RateLimiter.acquire` (server.py:178-194), one atomic step under
the limiter lock.  An absent client is first given `burst` tokens with
`last = now`; then the bucket is refilled by `elapsed * rate` capped at
`burst`; a call with at least one token consumes one and is admitted. -/
def RateLimiter.acquire (rl : RateLimiter) (client : String) (now : ℚ) :
    (Bool × ℚ) × RateLimiter :=
  let rl₁ :=
    if (getKey rl.tokens client).isNone then
      { rl with tokens := putKey rl.tokens client rl.burst,
                last := putKey rl.last client now }
    else rl
  let elapsed := now - ((getKey rl₁.last client).getD now)
  let t₁ := min rl₁.burst (((getKey rl₁.tokens client).getD rl₁.burst) + elapsed * rl₁.rate)
  let rl₂ := { rl₁ with tokens := putKey rl₁.tokens client t₁,
                        last := putKey rl₁.last client now }
  if 1 ≤ t₁ then
    ((true, 0), { rl₂ with tokens := putKey rl₂.tokens client (t₁ - 1) })
  else
    ((false, (1 - t₁) / rl₂.rate), rl₂)

/-! ## AuthFailureLimiter (server.py:214-265)

Sliding-window failure counter with transient lockout. -/

structure AuthFailureLimiter where
  max_attempts : Nat
  lockout_seconds : Nat
  window_seconds : Nat
  failures : List (String × List ℚ)
  lockouts : List (String × ℚ)
deriving DecidableEq

/-- Models `AuthFailureLimiter.__init__` (server.py:217-228). -/
def AuthFailureLimiter.ofConfig (ma ls ws : Nat) : AuthFailureLimiter :=
  ⟨ma, ls, ws, [], []⟩

/-- Models `AuthFailureLimiter.is_locked_out` (server.py:230-238): an expired
lockout is cleared (together with the failure history) on inspection. -/
def AuthFailureLimiter.is_locked_out (a : AuthFailureLimiter) (client : String)
    (now : ℚ) : (Bool × ℚ) × AuthFailureLimiter :=
  match getKey a.lockouts client with
  | some expiry =>
    if 0 < expiry - now then ((true, expiry - now), a)
    else ((false, 0),
      { a with lockouts := eraseKey a.lockouts client,
               failures := eraseKey a.failures client })
  | none => ((false, 0), a)

/-- Models `AuthFailureLimiter.record_failure` (server.py:240-253): prune
timestamps outside the window, append `now`, and lock out when the in-window
count reaches `max_attempts`. -/
def AuthFailureLimiter.record_failure (a : AuthFailureLimiter) (client : String)
    (now : ℚ) : (Bool × Nat) × AuthFailureLimiter :=
  let pruned := ((getKey a.failures client).getD []).filter
    (fun ts => now - ts < (a.window_seconds : ℚ))
  let upd := pruned ++ [now]
  if a.max_attempts ≤ upd.length then
    ((true, 0),
      { a with failures := putKey a.failures client upd,
               lockouts := putKey a.lockouts client (now + (a.lockout_seconds : ℚ)) })
  else
    ((false, a.max_attempts - upd.length),
      { a with failures := putKey a.failures client upd })

/-- Models `AuthFailureLimiter.record_success` (server.py:255-258). -/
def AuthFailureLimiter.record_success (a : AuthFailureLimiter) (client : String) :
    AuthFailureLimiter :=
  { a with failures := eraseKey a.failures client,
           lockouts := eraseKey a.lockouts client }

/-- The number of failure timestamps of `client` still inside the sliding
window at time `now`. -/
def inWindowCount (a : AuthFailureLimiter) (client : String) (now : ℚ) : Nat :=
  (((getKey a.failures client).getD []).filter
    (fun ts => now - ts < (a.window_seconds : ℚ))).length

/-- Both branches of `record_failure` store back `pruned ++ [now]` as the
client's failure history. -/
theorem record_failure_failures (a : AuthFailureLimiter) (client : String)
    (now : ℚ) :
    getKey ((a.record_failure client now).2).failures client =
      some ((((getKey a.failures client).getD []).filter
        (fun ts => now - ts < (a.window_seconds : ℚ))) ++ [now]) := by
  unfold AuthFailureLimiter.record_failure
  by_cases h : a.max_attempts ≤
      ((((getKey a.failures client).getD []).filter
        (fun ts => now - ts < (a.window_seconds : ℚ))) ++ [now]).length
  · simp only [h, if_true, getKey_putKey_self]
  · simp only [h, if_false, getKey_putKey_self]

/-! ## Claim theorems: rate limiter and auth limiter -/

/-- C5.  On every `RateLimiter.acquire(client)` call the client's token count
is first refilled to `min(burst, old + elapsed * rate)`; with at least one
refilled token one token is consumed and `(true, 0)` is returned, otherwise
`(false, (1 - tokens) / rate)` is returned; in particular, when the old count
was below 1 and the refill yields exactly one token, the call admits. -/
theorem acquire_token_refill_spec (rl : RateLimiter) (client : String) (now : ℚ) :
    let t₀ := (getKey rl.tokens client).getD rl.burst
    let l₀ := if (getKey rl.tokens client).isNone then now
              else (getKey rl.last client).getD now
    let refilled := min rl.burst (t₀ + (now - l₀) * rl.rate)
    ((rl.acquire client now).1 =
      if 1 ≤ refilled then (true, 0) else (false, (1 - refilled) / rl.rate))
    ∧ (1 ≤ refilled →
        getKey ((rl.acquire client now).2).tokens client = some (refilled - 1))
    ∧ (refilled < 1 →
        getKey ((rl.acquire client now).2).tokens client = some refilled)
    ∧ (t₀ < 1 → refilled = 1 → (rl.acquire client now).1 = (true, 0)) := by
  dsimp only
  cases h : getKey rl.tokens client with
  | none =>
    have hmin : min rl.burst (rl.burst + (now - now) * rl.rate) = rl.burst := by
      rw [sub_self, zero_mul, add_zero, min_self]
    simp only [RateLimiter.acquire, h, Option.isNone_none, if_true,
      Option.getD_some, Option.getD_none, getKey_putKey_self, hmin]
    by_cases h1 : (1 : ℚ) ≤ rl.burst
    · simp only [h1, if_true, getKey_putKey_self]
      exact ⟨trivial, fun _ => trivial, fun h2 => (h2.not_le h1).elim, fun _ _ => trivial⟩
    · simp only [h1, if_false, getKey_putKey_self]
      exact ⟨trivial, fun h2 => h2.elim, fun _ => trivial,
        fun _ h2 => ((h1 (h2 ▸ le_refl (1 : ℚ)))).elim⟩
  | some v =>
    simp only [RateLimiter.acquire, h, Option.isNone_some, Bool.false_eq_true,
      if_false, Option.getD_some]
    by_cases h1 : (1 : ℚ) ≤
        min rl.burst (v + (now - (getKey rl.last client).getD now) * rl.rate)
    · simp only [h1, if_true, getKey_putKey_self]
      exact ⟨trivial, fun _ => trivial, fun h2 => (h2.not_le h1).elim, fun _ _ => trivial⟩
    · simp only [h1, if_false, getKey_putKey_self]
      exact ⟨trivial, fun h2 => h2.elim, fun _ => trivial,
        fun _ h2 => ((h1 (h2 ▸ le_refl (1 : ℚ)))).elim⟩

/-- Witness for `acquire_token_refill_spec`: a limiter with rate 1, burst 2 and
a client holding half a token last refilled at time 0, queried at time 1/2,
refills to exactly one token and admits. -/
theorem acquire_token_refill_spec_witness :
    ((RateLimiter.mk 1 2 [("c", 1/2)] [("c", 0)]).acquire "c" (1/2)).1 = (true, 0) :=
  (acquire_token_refill_spec (RateLimiter.mk 1 2 [("c", 1/2)] [("c", 0)]) "c" (1/2)).2.2.2
    (by norm_num [getKey]) (by norm_num [getKey])

/-- C10.  A client unseen by the `RateLimiter` has its bucket initialized to
`burst` tokens before the admission check, so when `burst ≥ 1` the first
`acquire` admits with zero wait and leaves `burst - 1` tokens. -/
theorem first_acquire_initializes_bucket (rl : RateLimiter) (client : String)
    (now : ℚ) (h₀ : getKey rl.tokens client = none) (h₁ : 1 ≤ rl.burst) :
    (rl.acquire client now).1 = (true, 0)
    ∧ getKey ((rl.acquire client now).2).tokens client = some (rl.burst - 1)
    ∧ getKey ((rl.acquire client now).2).last client = some now := by
  have hmin : min rl.burst (rl.burst + (now - now) * rl.rate) = rl.burst := by
    rw [sub_self, zero_mul, add_zero, min_self]
  simp only [RateLimiter.acquire, h₀, Option.isNone_none, if_true, Option.getD,
    getKey_putKey_self, hmin, h₁, if_true]
  exact ⟨trivial, trivial, trivial⟩

/-- Witness for `first_acquire_initializes_bucket` at a fresh limiter with
rpm 120, burst 20. -/
theorem first_acquire_initializes_bucket_witness :
    ((RateLimiter.ofConfig 120 20).acquire "client" 5).1 = (true, 0)
    ∧ getKey ((RateLimiter.ofConfig 120 20).acquire "client" 5).2.tokens "client"
        = some ((20 : ℚ) - 1) :=
  ⟨(first_acquire_initializes_bucket (RateLimiter.ofConfig 120 20) "client" 5
      rfl (by norm_num [RateLimiter.ofConfig])).1,
   (first_acquire_initializes_bucket (RateLimiter.ofConfig 120 20) "client" 5
      rfl (by norm_num [RateLimiter.ofConfig])).2.1⟩

/-- C6.  `record_failure` prunes the client's timestamps older than
`window_seconds`, appends `now`, and locks the client out exactly when the
resulting in-window count reaches `max_attempts`; a client with exactly
`max_attempts - 1` in-window failures is locked by its next failure. -/
theorem record_failure_spec (a : AuthFailureLimiter) (client : String) (now : ℚ) :
    let pruned := ((getKey a.failures client).getD []).filter
      (fun ts => now - ts < (a.window_seconds : ℚ))
    ((a.record_failure client now).1 =
      if a.max_attempts ≤ pruned.length + 1 then (true, 0)
      else (false, a.max_attempts - (pruned.length + 1)))
    ∧ getKey ((a.record_failure client now).2).failures client = some (pruned ++ [now])
    ∧ (a.max_attempts ≤ pruned.length + 1 →
        getKey ((a.record_failure client now).2).lockouts client
          = some (now + (a.lockout_seconds : ℚ)))
    ∧ (pruned.length = a.max_attempts - 1 → 1 ≤ a.max_attempts →
        (a.record_failure client now).1 = (true, 0)) := by
  dsimp only
  refine ⟨?_, record_failure_failures a client now, ?_, ?_⟩
  · by_cases h : a.max_attempts ≤
        (((getKey a.failures client).getD []).filter
          (fun ts => now - ts < (a.window_seconds : ℚ))).length + 1
    · simp only [AuthFailureLimiter.record_failure, List.length_append,
        List.length_singleton, h, if_true]
    · simp only [AuthFailureLimiter.record_failure, List.length_append,
        List.length_singleton, h, if_false]
  · intro h
    simp only [AuthFailureLimiter.record_failure, List.length_append,
      List.length_singleton, h, if_true, getKey_putKey_self]
  · intro hlen hma
    have h : a.max_attempts ≤
        (((getKey a.failures client).getD []).filter
          (fun ts => now - ts < (a.window_seconds : ℚ))).length + 1 := by omega
    simp only [AuthFailureLimiter.record_failure, List.length_append,
      List.length_singleton, h, if_true]

/-- Witness for `record_failure_spec`: with `max_attempts = 3` and two
in-window failures, the third failure locks and returns `(true, 0)`. -/
theorem record_failure_spec_witness :
    ((AuthFailureLimiter.mk 3 300 60 [("c", [1, 2])] []).record_failure "c" 3).1
      = (true, 0) :=
  ((record_failure_spec (AuthFailureLimiter.mk 3 300 60 [("c", [1, 2])] []) "c" 3).2.2.2)
    (by norm_num [getKey, List.filter]) (by norm_num)

/-- C7.  A single `record_success` erases the client's entire failure history
and any lockout, after any sequence of `record_failure` calls: the next
lockout check reports unlocked with zero remaining time, the in-window count
is zero, and a subsequent failure restarts the history at exactly `[now]`. -/
theorem record_success_clears_state (a : AuthFailureLimiter) (calls : List ℚ)
    (client : String) (now : ℚ) :
    let a₁ := calls.foldl (fun s t => (s.record_failure client t).2) a
    let a₂ := a₁.record_success client
    getKey a₂.failures client = none
    ∧ getKey a₂.lockouts client = none
    ∧ (a₂.is_locked_out client now).1 = (false, 0)
    ∧ inWindowCount a₂ client now = 0
    ∧ getKey ((a₂.record_failure client now).2).failures client = some [now] := by
  dsimp only
  set a₁ := calls.foldl (fun s t => (s.record_failure client t).2) a with ha₁
  have hf : getKey (a₁.record_success client).failures client = none := by
    simp only [AuthFailureLimiter.record_success]
    exact getKey_eraseKey_self _ _
  have hl : getKey (a₁.record_success client).lockouts client = none := by
    simp only [AuthFailureLimiter.record_success]
    exact getKey_eraseKey_self _ _
  refine ⟨hf, hl, ?_, ?_, ?_⟩
  · simp only [AuthFailureLimiter.is_locked_out, hl]
  · simp only [inWindowCount, hf, Option.getD, List.filter_nil, List.length_nil]
  · rw [record_failure_failures, hf]
    simp

/-! ## Claim theorems: translation cache -/

/-- If a key is absent from `l`, appending `(k, v)` at the MRU end and evicting
from the LRU end with capacity at least one leaves `(k, v)` retrievable. -/
theorem getKey_evictLRU_append {α β : Type} [DecidableEq α] (m : Nat)
    (hm : 1 ≤ m) (l : List (α × β)) (k : α) (v : β)
    (h : getKey l k = none) :
    getKey (evictLRU m (l ++ [(k, v)])) k = some v := by
  induction l with
  | nil =>
    have hc : ¬ m < 0 + 1 := by omega
    simp only [List.nil_append, evictLRU, List.length_nil, hc, if_false]
    simp [getKey]
  | cons p t ih =>
    by_cases hp : p.1 = k
    · simp [getKey, hp] at h
    · simp only [getKey, hp, if_false] at h
      by_cases hc : m < (t ++ [(k, v)]).length + 1
      · rw [List.cons_append, evictLRU, if_pos hc]
        exact ih h
      · rw [List.cons_append, evictLRU, if_neg hc]
        simp only [getKey, hp, if_false]
        rw [getKey_append_of_none t _ k h]
        simp [getKey]

/-- Evicting a list one over capacity pops exactly the front element. -/
theorem evictLRU_eq_tail {γ : Type} (m : Nat) (l : List γ)
    (h : l.length = m + 1) : evictLRU m l = l.tail := by
  cases l with
  | nil => simp at h
  | cons x t =>
    have ht : t.length = m := by simpa using h
    have hc : m < t.length + 1 := by omega
    simp only [evictLRU, hc, if_true, List.tail_cons]
    exact evictLRU_of_length_le m t (by omega)

/-- After `set`, the written key maps to the freshly written entry (as long as
the capacity is at least one). -/
theorem getKey_set_self (c : TranslationCache) (texts : List String)
    (lang model : String) (tr : List String) (now : ℚ) (hms : 1 ≤ c.max_size) :
    getKey ((c.set texts lang model tr now).cache) (cacheKey texts lang model)
      = some ⟨tr, now⟩ :=
  getKey_evictLRU_append c.max_size hms _ _ _ (getKey_eraseKey_self _ _)

/-- Branch equation of `get` for an absent key. -/
theorem get_eq_none (c : TranslationCache) (texts : List String)
    (lang model : String) (now : ℚ)
    (hk : getKey c.cache (cacheKey texts lang model) = none) :
    c.get texts lang model now = (none, { c with misses := c.misses + 1 }) := by
  simp [TranslationCache.get, hk]

/-- Branch equation of `get` for a fresh entry. -/
theorem get_eq_hit (c : TranslationCache) (texts : List String)
    (lang model : String) (now : ℚ) (e : CacheEntry)
    (hk : getKey c.cache (cacheKey texts lang model) = some e)
    (ht : now - e.ts < (c.ttl : ℚ)) :
    c.get texts lang model now
      = (some e.data,
          { c with cache := eraseKey c.cache (cacheKey texts lang model)
              ++ [(cacheKey texts lang model, e)], hits := c.hits + 1 }) := by
  simp [TranslationCache.get, hk, ht]

/-- Branch equation of `get` for an expired entry. -/
theorem get_eq_expired (c : TranslationCache) (texts : List String)
    (lang model : String) (now : ℚ) (e : CacheEntry)
    (hk : getKey c.cache (cacheKey texts lang model) = some e)
    (ht : ¬ now - e.ts < (c.ttl : ℚ)) :
    c.get texts lang model now
      = (none,
          { c with cache := eraseKey c.cache (cacheKey texts lang model),
                   misses := c.misses + 1 }) := by
  simp [TranslationCache.get, hk, ht]

/-- A `get` finding a fresh entry returns its stored data. -/
theorem get_of_fresh (c : TranslationCache) (texts : List String)
    (lang model : String) (e : CacheEntry) (now : ℚ)
    (hk : getKey c.cache (cacheKey texts lang model) = some e)
    (h : now - e.ts < (c.ttl : ℚ)) :
    (c.get texts lang model now).1 = some e.data := by
  rw [get_eq_hit c texts lang model now e hk h]

/-- One cache operation keeps the size within `max_size` and does not change
`max_size`. -/
theorem applyOp_bound (c : TranslationCache) (op : CacheOp)
    (h : c.cache.length ≤ c.max_size) :
    (applyOp c op).cache.length ≤ (applyOp c op).max_size
    ∧ (applyOp c op).max_size = c.max_size := by
  cases op with
  | put texts lang model tr now =>
    exact ⟨length_evictLRU_le _ _, rfl⟩
  | get texts lang model now =>
    show ((c.get texts lang model now).2).cache.length
        ≤ ((c.get texts lang model now).2).max_size
      ∧ ((c.get texts lang model now).2).max_size = c.max_size
    cases hk : getKey c.cache (cacheKey texts lang model) with
    | none =>
      rw [get_eq_none c texts lang model now hk]
      exact ⟨h, rfl⟩
    | some e =>
      by_cases ht : now - e.ts < (c.ttl : ℚ)
      · rw [get_eq_hit c texts lang model now e hk ht]
        refine ⟨?_, rfl⟩
        have hl := length_eraseKey_of_getKey_some c.cache _ e hk
        show (eraseKey c.cache (cacheKey texts lang model)
            ++ [(cacheKey texts lang model, e)]).length ≤ c.max_size
        simp only [List.length_append, List.length_singleton]
        omega
      · rw [get_eq_expired c texts lang model now e hk ht]
        have hl := length_eraseKey_le c.cache (cacheKey texts lang model)
        refine ⟨?_, rfl⟩
        show (eraseKey c.cache (cacheKey texts lang model)).length ≤ c.max_size
        omega

theorem runOps_bound (c : TranslationCache) (ops : List CacheOp)
    (h : c.cache.length ≤ c.max_size) :
    (runOps c ops).cache.length ≤ (runOps c ops).max_size
    ∧ (runOps c ops).max_size = c.max_size := by
  induction ops generalizing c with
  | nil => exact ⟨h, rfl⟩
  | cons op rest ih =>
    have hs := applyOp_bound c op h
    have hr := ih (applyOp c op) (hs.2 ▸ hs.1)
    exact ⟨hr.1, hr.2.trans hs.2⟩

/-- C3.  Over any sequence of cache operations from a fresh cache the number
of stored entries never exceeds `max_size`; `get` never returns an entry whose
age is at least `ttl`, and an expired entry met by `get` is removed and
reported absent. -/
theorem cache_bounded_and_no_expired_returns (ms ttlv : Nat) (ops : List CacheOp)
    (c : TranslationCache) (texts : List String) (lang model : String) (now : ℚ) :
    (runOps (initCache ms ttlv) ops).cache.length ≤ ms
    ∧ (∀ v, (c.get texts lang model now).1 = some v →
        ∃ e, getKey c.cache (cacheKey texts lang model) = some e
          ∧ now - e.ts < (c.ttl : ℚ) ∧ e.data = v)
    ∧ (∀ e, getKey c.cache (cacheKey texts lang model) = some e →
        (c.ttl : ℚ) ≤ now - e.ts →
        (c.get texts lang model now).1 = none
        ∧ getKey ((c.get texts lang model now).2).cache (cacheKey texts lang model)
            = none) := by
  refine ⟨?_, ?_, ?_⟩
  · have h := runOps_bound (initCache ms ttlv) ops (by simp [initCache])
    have h2 : (runOps (initCache ms ttlv) ops).max_size = ms := h.2
    have h1 := h.1
    omega
  · intro v hv
    cases hk : getKey c.cache (cacheKey texts lang model) with
    | none =>
      rw [get_eq_none c texts lang model now hk] at hv
      simp at hv
    | some e =>
      by_cases ht : now - e.ts < (c.ttl : ℚ)
      · rw [get_eq_hit c texts lang model now e hk ht] at hv
        simp only [Option.some.injEq] at hv
        exact ⟨e, rfl, ht, hv⟩
      · rw [get_eq_expired c texts lang model now e hk ht] at hv
        simp at hv
  · intro e hk ht
    have ht' : ¬ now - e.ts < (c.ttl : ℚ) := not_lt.mpr ht
    rw [get_eq_expired c texts lang model now e hk ht']
    exact ⟨rfl, getKey_eraseKey_self _ _⟩

/-- Witness for `cache_bounded_and_no_expired_returns`: a two-op trace stays
within a capacity of 2; a fresh entry retrieved at age 50 with ttl 100 indeed
comes from an unexpired stored entry; and an entry of age 100 is purged. -/
theorem cache_bounded_and_no_expired_returns_witness :
    (runOps (initCache 2 100)
        [CacheOp.put ["a"] "fr" "m" ["b"] 0, CacheOp.get ["a"] "fr" "m" 10]).cache.length ≤ 2
    ∧ (∃ e, getKey (TranslationCache.mk 2 100 [((["a"], "fr", "m"), ⟨["b"], 0⟩)] 0 0).cache
          (cacheKey ["a"] "fr" "m") = some e
        ∧ (50 : ℚ) - e.ts
            < ((TranslationCache.mk 2 100 [((["a"], "fr", "m"), ⟨["b"], 0⟩)] 0 0).ttl : ℚ)
        ∧ e.data = ["b"])
    ∧ ((TranslationCache.mk 2 100 [((["a"], "fr", "m"), ⟨["b"], 0⟩)] 0 0).get
          ["a"] "fr" "m" 100).1 = none :=
  ⟨(cache_bounded_and_no_expired_returns 2 100
      [CacheOp.put ["a"] "fr" "m" ["b"] 0, CacheOp.get ["a"] "fr" "m" 10]
      (initCache 2 100) ["a"] "fr" "m" 0).1,
   (cache_bounded_and_no_expired_returns 2 100 []
      (TranslationCache.mk 2 100 [((["a"], "fr", "m"), ⟨["b"], 0⟩)] 0 0)
      ["a"] "fr" "m" 50).2.1 ["b"]
      (by rw [get_eq_hit _ _ _ _ _ ⟨["b"], 0⟩ (by simp [getKey, cacheKey]) (by norm_num)]),
   ((cache_bounded_and_no_expired_returns 2 100 []
      (TranslationCache.mk 2 100 [((["a"], "fr", "m"), ⟨["b"], 0⟩)] 0 0)
      ["a"] "fr" "m" 100).2.2 ⟨["b"], 0⟩ (by simp [getKey, cacheKey]) (by norm_num)).1⟩

/-- C8.  A `put` followed by a `get` of the same key within `ttl` returns the
stored translations, and a second `put` of the same key supersedes the first. -/
theorem cache_put_get_laws (c : TranslationCache) (texts : List String)
    (lang model : String) (tr tr₂ : List String) (now₁ now₂ now₃ : ℚ)
    (hms : 1 ≤ c.max_size) (h₁ : now₂ - now₁ < (c.ttl : ℚ))
    (h₂ : now₃ - now₂ < (c.ttl : ℚ)) :
    ((c.set texts lang model tr now₁).get texts lang model now₂).1 = some tr
    ∧ (((c.set texts lang model tr now₁).set texts lang model tr₂ now₂).get
        texts lang model now₃).1 = some tr₂ := by
  constructor
  · exact get_of_fresh _ texts lang model ⟨tr, now₁⟩ now₂
      (getKey_set_self c texts lang model tr now₁ hms) h₁
  · exact get_of_fresh _ texts lang model ⟨tr₂, now₂⟩ now₃
      (getKey_set_self _ texts lang model tr₂ now₂ hms) h₂

/-- Witness for `cache_put_get_laws` on a fresh cache of capacity 5, ttl 100. -/
theorem cache_put_get_laws_witness :
    (((initCache 5 100).set ["hi"] "fr" "m" ["salut"] 0).get ["hi"] "fr" "m" 1).1
      = some ["salut"]
    ∧ ((((initCache 5 100).set ["hi"] "fr" "m" ["salut"] 0).set
        ["hi"] "fr" "m" ["bonjour"] 1).get ["hi"] "fr" "m" 2).1 = some ["bonjour"] :=
  cache_put_get_laws (initCache 5 100) ["hi"] "fr" "m" ["salut"] ["bonjour"] 0 1 2
    (by norm_num [initCache]) (by norm_num [initCache]) (by norm_num [initCache])

/-- C9.  A `put` of a new key into a cache holding exactly `max_size` entries
evicts exactly one entry, the one at the LRU end (the list head), leaving the
size at `max_size`. -/
theorem put_at_capacity_evicts_lru (c : TranslationCache) (texts : List String)
    (lang model : String) (tr : List String) (now : ℚ)
    (hfull : c.cache.length = c.max_size) (hpos : 1 ≤ c.max_size)
    (hnew : getKey c.cache (cacheKey texts lang model) = none) :
    (c.set texts lang model tr now).cache
      = c.cache.tail ++ [(cacheKey texts lang model, ⟨tr, now⟩)]
    ∧ (c.set texts lang model tr now).cache.length = c.max_size := by
  have he : eraseKey c.cache (cacheKey texts lang model) = c.cache :=
    eraseKey_of_getKey_none _ _ hnew
  have hmain : (c.set texts lang model tr now).cache
      = c.cache.tail ++ [(cacheKey texts lang model, ⟨tr, now⟩)] := by
    show evictLRU c.max_size
        (eraseKey c.cache (cacheKey texts lang model)
          ++ [(cacheKey texts lang model, ⟨tr, now⟩)]) = _
    rw [he, evictLRU_eq_tail c.max_size _ (by simp [hfull])]
    cases hc : c.cache with
    | nil => rw [hc] at hfull; simp at hfull; omega
    | cons x t => simp
  refine ⟨hmain, ?_⟩
  rw [hmain]
  have h1 : 1 ≤ c.cache.length := by omega
  simp [List.length_tail]
  omega

/-- Witness for `put_at_capacity_evicts_lru`: a cache of capacity 1 holding
one entry; putting a new key evicts the old head. -/
theorem put_at_capacity_evicts_lru_witness :
    ((TranslationCache.mk 1 100 [((["old"], "fr", "m"), ⟨["x"], 0⟩)] 0 0).set
        ["new"] "fr" "m" ["y"] 1).cache
      = [((cacheKey ["new"] "fr" "m"), ⟨["y"], 1⟩)]
    ∧ ((TranslationCache.mk 1 100 [((["old"], "fr", "m"), ⟨["x"], 0⟩)] 0 0).set
        ["new"] "fr" "m" ["y"] 1).cache.length = 1 :=
  put_at_capacity_evicts_lru
    (TranslationCache.mk 1 100 [((["old"], "fr", "m"), ⟨["x"], 0⟩)] 0 0)
    ["new"] "fr" "m" ["y"] 1 rfl (by norm_num) (by simp [getKey, cacheKey])

/-- Number of `get` operations in a trace. -/
def countGets : List CacheOp → Nat
  | [] => 0
  | CacheOp.get _ _ _ _ :: t => countGets t + 1
  | CacheOp.put _ _ _ _ _ :: t => countGets t

/-- Every `get` bumps exactly one of the hit / miss counters. -/
theorem get_hits_misses (c : TranslationCache) (texts : List String)
    (lang model : String) (now : ℚ) :
    ((c.get texts lang model now).2).hits + ((c.get texts lang model now).2).misses
      = c.hits + c.misses + 1 := by
  cases hk : getKey c.cache (cacheKey texts lang model) with
  | none =>
    rw [get_eq_none c texts lang model now hk]
    show c.hits + (c.misses + 1) = c.hits + c.misses + 1
    omega
  | some e =>
    by_cases ht : now - e.ts < (c.ttl : ℚ)
    · rw [get_eq_hit c texts lang model now e hk ht]
      show c.hits + 1 + c.misses = c.hits + c.misses + 1
      omega
    · rw [get_eq_expired c texts lang model now e hk ht]
      show c.hits + (c.misses + 1) = c.hits + c.misses + 1
      omega

theorem runOps_hits_misses (c : TranslationCache) (ops : List CacheOp) :
    (runOps c ops).hits + (runOps c ops).misses
      = c.hits + c.misses + countGets ops := by
  induction ops generalizing c with
  | nil => rfl
  | cons op rest ih =>
    show (runOps (applyOp c op) rest).hits + (runOps (applyOp c op) rest).misses = _
    rw [ih (applyOp c op)]
    cases op with
    | put texts lang model tr now =>
      show c.hits + c.misses + countGets rest = _
      simp only [countGets]
    | get texts lang model now =>
      show ((c.get texts lang model now).2).hits + ((c.get texts lang model now).2).misses
          + countGets rest = _
      rw [get_hits_misses c texts lang model now]
      simp only [countGets]
      omega

/-- C4 counterexample.  `stats()` of the source cache has no `timeouts`
field: its dictionary keys are exactly size, max_size, hits, misses and
hit_rate (`get`/`set` take the plain `asyncio.Lock` with an unbounded wait;
no timeout path exists). -/
theorem stats_no_timeouts_field :
    ¬ ("timeouts" ∈ ((initCache 5000 3600).stats.map Prod.fst)) := by
  decide

/-- C4 amended.  After any operation trace, `stats()` reports exactly the
fields size, max_size, hits, misses and hit_rate, and every `get` is counted
as exactly one hit or one miss (there is no timeouts counter and no bounded
lock wait in the source). -/
theorem stats_reported_fields (ms ttlv : Nat) (ops : List CacheOp) :
    ((runOps (initCache ms ttlv) ops).stats).map Prod.fst
      = ["size", "max_size", "hits", "misses", "hit_rate"]
    ∧ (runOps (initCache ms ttlv) ops).hits + (runOps (initCache ms ttlv) ops).misses
      = countGets ops := by
  constructor
  · simp [TranslationCache.stats]
  · have h := runOps_hits_misses (initCache ms ttlv) ops
    simpa [initCache] using h

/-! ## Request flow of `translate` (server.py:1049-1166) and
`stream_translations` (server.py:944-1041)

For a fixed fingerprint `(texts, target_language, model)`, each request that
passes the lockout and rate checks executes, in order:
cache lookup (server.py:1088), and on a miss one upstream call
(server.py:967-972 / 1191-1196) followed, on successful completion with
matching lengths, by a cache store (server.py:1029-1032).  There is no
in-flight request deduplicator anywhere in the source: no structure maps a
fingerprint to a pending slot, and nothing makes a later request wait on an
earlier one.  The model below keeps, per request, which of these three
program points it has reached, plus the shared cache state for the
fingerprint and the number of upstream calls issued; an interleaving is a
schedule of request indices.  Owner errors are outside the model (the claim's
premise is that the first request completes and publishes). -/

inductive ReqPhase where
  | toLookup
  | toCall
  | toStore
  | finished (fromCache : Bool)
deriving DecidableEq

structure FlowState where
  cached : Bool
  upstreamCalls : Nat
  phases : List ReqPhase
deriving DecidableEq

/-- Advance request `i` by one program step of `translate`:
`toLookup` runs the cache lookup (hit → respond from cache, miss → proceed),
`toCall` issues the upstream POST, `toStore` writes the cache and responds.
A finished or out-of-range request does not move. -/
def flowStep (s : FlowState) (i : Nat) : FlowState :=
  match s.phases.get? i with
  | some ReqPhase.toLookup =>
    if s.cached then { s with phases := s.phases.set i (ReqPhase.finished true) }
    else { s with phases := s.phases.set i ReqPhase.toCall }
  | some ReqPhase.toCall =>
    { s with upstreamCalls := s.upstreamCalls + 1,
             phases := s.phases.set i ReqPhase.toStore }
  | some ReqPhase.toStore =>
    { s with cached := true, phases := s.phases.set i (ReqPhase.finished false) }
  | _ => s

def runFlow (s : FlowState) (sched : List Nat) : FlowState :=
  sched.foldl flowStep s

/-- `n` same-fingerprint requests, none yet started, nothing cached. -/
def initFlow (n : Nat) : FlowState :=
  ⟨false, 0, List.replicate n ReqPhase.toLookup⟩

/-- The fully serialized schedule: request 0 runs to completion, then
request 1, and so on. -/
def seqSched (n : Nat) : List Nat :=
  (List.range n).flatMap (fun i => [i, i, i])

theorem runFlow_append (s : FlowState) (a b : List Nat) :
    runFlow s (a ++ b) = runFlow (runFlow s a) b := by
  unfold runFlow
  rw [List.foldl_append]

/-- C1 counterexample.  Two concurrent requests with the same fingerprint,
interleaved so that both cache lookups precede either upstream call (the
schedule lookup₀ lookup₁ call₀ call₁ store₀ store₁), issue two upstream
calls, not one, and neither request is served a coalesced result. -/
theorem no_dedup_two_concurrent_requests_two_upstream_calls :
    (runFlow (initFlow 2) [0, 1, 0, 1, 0, 1]).upstreamCalls = 2
    ∧ ¬ (runFlow (initFlow 2) [0, 1, 0, 1, 0, 1]).upstreamCalls = 1
    ∧ (runFlow (initFlow 2) [0, 1, 0, 1, 0, 1]).phases
        = [ReqPhase.finished false, ReqPhase.finished false] := by
  decide

/-- The sequential invariant: after requests `0..n-1` have each run to
completion in turn (of `N` total), exactly one upstream call was made,
request 0 finished from upstream, requests `1..n-1` finished from cache. -/
theorem runFlow_seq (N : Nat) :
    ∀ n, 1 ≤ n → n ≤ N →
    runFlow (initFlow N) (seqSched n)
      = ⟨true, 1, ReqPhase.finished false ::
          (List.replicate (n - 1) (ReqPhase.finished true)
            ++ List.replicate (N - n) ReqPhase.toLookup)⟩ := by
  intro n
  induction n with
  | zero => intro h1 _; exact absurd h1 (by omega)
  | succ n ih =>
    intro h1 h2
    by_cases hn : n = 0
    · subst hn
      obtain ⟨m, rfl⟩ : ∃ m, N = m + 1 := ⟨N - 1, by omega⟩
      have h0 : seqSched 1 = [0, 0, 0] := rfl
      rw [h0]
      simp [runFlow, initFlow, flowStep, List.replicate_succ]
    · have hn1 : 1 ≤ n := by omega
      have hs := ih hn1 (by omega)
      have hsched : seqSched (n + 1) = seqSched n ++ [n, n, n] := by
        simp [seqSched, List.range_succ]
      obtain ⟨j, rfl⟩ : ∃ j, n = j + 1 := ⟨n - 1, by omega⟩
      obtain ⟨k, hk⟩ : ∃ k, N - (j + 1) = k + 1 := ⟨N - (j + 1) - 1, by omega⟩
      rw [hsched, runFlow_append, hs, hk]
      have hget : ((ReqPhase.finished false) ::
            (List.replicate (j + 1 - 1) (ReqPhase.finished true)
              ++ List.replicate (k + 1) ReqPhase.toLookup)).get? (j + 1)
          = some ReqPhase.toLookup := by
        simp only [Nat.add_sub_cancel, List.get?_eq_getElem?]
        rw [List.getElem?_cons_succ, List.getElem?_append_right (by simp)]
        simp [List.getElem?_replicate]
      have hset : ((ReqPhase.finished false) ::
            (List.replicate (j + 1 - 1) (ReqPhase.finished true)
              ++ List.replicate (k + 1) ReqPhase.toLookup)).set (j + 1)
            (ReqPhase.finished true)
          = (ReqPhase.finished false) ::
            (List.replicate (j + 1) (ReqPhase.finished true)
              ++ List.replicate k ReqPhase.toLookup) := by
        simp only [Nat.add_sub_cancel]
        rw [List.set_cons_succ, List.set_append_right _ _ (by simp)]
        simp only [List.length_replicate, Nat.sub_self, List.replicate_succ,
          List.set_cons_zero]
        rw [show (ReqPhase.finished true) :: List.replicate k ReqPhase.toLookup
            = [ReqPhase.finished true] ++ List.replicate k ReqPhase.toLookup from rfl,
          ← List.append_assoc, ← List.replicate_succ', List.replicate_succ]
      have hget2 : ((ReqPhase.finished false) ::
            (List.replicate (j + 1) (ReqPhase.finished true)
              ++ List.replicate k ReqPhase.toLookup)).get? (j + 1)
          = some (ReqPhase.finished true) := by
        simp only [List.get?_eq_getElem?]
        rw [List.getElem?_cons_succ]
        simp [List.getElem?_append, List.getElem?_replicate, Nat.lt_succ_self]
      show runFlow _ [j + 1, j + 1, j + 1] = _
      simp only [runFlow, List.foldl_cons, List.foldl_nil]
      rw [show flowStep ⟨true, 1, (ReqPhase.finished false) ::
            (List.replicate (j + 1 - 1) (ReqPhase.finished true)
              ++ List.replicate (k + 1) ReqPhase.toLookup)⟩ (j + 1)
          = ⟨true, 1, (ReqPhase.finished false) ::
              (List.replicate (j + 1) (ReqPhase.finished true)
                ++ List.replicate k ReqPhase.toLookup)⟩ from by
        simp only [flowStep, hget, if_true]
        rw [show (⟨true, 1, _⟩ : FlowState).phases.set (j+1) (ReqPhase.finished true)
            = _ from hset]]
      rw [show flowStep ⟨true, 1, (ReqPhase.finished false) ::
            (List.replicate (j + 1) (ReqPhase.finished true)
              ++ List.replicate k ReqPhase.toLookup)⟩ (j + 1)
          = ⟨true, 1, (ReqPhase.finished false) ::
              (List.replicate (j + 1) (ReqPhase.finished true)
                ++ List.replicate k ReqPhase.toLookup)⟩ from by
        simp only [flowStep, hget2]]
      rw [show flowStep ⟨true, 1, (ReqPhase.finished false) ::
            (List.replicate (j + 1) (ReqPhase.finished true)
              ++ List.replicate k ReqPhase.toLookup)⟩ (j + 1)
          = ⟨true, 1, (ReqPhase.finished false) ::
              (List.replicate (j + 1) (ReqPhase.finished true)
                ++ List.replicate k ReqPhase.toLookup)⟩ from by
        simp only [flowStep, hget2]]
      have hjk : N - (j + 1 + 1) = k := by omega
      rw [hjk]
      simp

/-- C1 amended.  The source has no request deduplicator: concurrent
same-fingerprint requests that each miss the cache each issue their own
upstream call (see the counterexample); coalescing happens only through the
completed-translation cache.  When the requests are fully serialized, exactly
one upstream call is issued and every later request is served the first
request's cached result. -/
theorem sequential_requests_single_upstream_call (N : Nat) (h : 1 ≤ N) :
    (runFlow (initFlow N) (seqSched N)).upstreamCalls = 1
    ∧ ∀ i, 1 ≤ i → i < N →
        (runFlow (initFlow N) (seqSched N)).phases.get? i
          = some (ReqPhase.finished true) := by
  rw [runFlow_seq N N h (le_refl N)]
  refine ⟨rfl, ?_⟩
  intro i h1 h2
  simp only [Nat.sub_self, List.replicate_zero, List.append_nil]
  obtain ⟨j, rfl⟩ : ∃ j, i = j + 1 := ⟨i - 1, by omega⟩
  simp only [List.get?_eq_getElem?]
  rw [List.getElem?_cons_succ]
  simp [List.getElem?_replicate]
  omega

/-- Witness for `sequential_requests_single_upstream_call` at three requests:
one upstream call; request 2 is served from cache. -/
theorem sequential_requests_single_upstream_call_witness :
    (runFlow (initFlow 3) (seqSched 3)).upstreamCalls = 1
    ∧ (runFlow (initFlow 3) (seqSched 3)).phases.get? 2
        = some (ReqPhase.finished true) :=
  ⟨(sequential_requests_single_upstream_call 3 (by norm_num)).1,
   (sequential_requests_single_upstream_call 3 (by norm_num)).2 2
     (by norm_num) (by norm_num)⟩

/-! ## StreamingJSONArrayParser (server.py:810-873)

Incremental parser over the accumulated buffer.  Python `str` is modelled as
`List Char`.  `str.lstrip()` strips Unicode whitespace; the model covers the
ASCII whitespace characters (all the whitespace a JSON document can contain
between tokens).  `json.loads` applied to the sliced string literal
(server.py:867) is modelled by `scanStr` (the index scan that finds the
closing quote, server.py:859-871) plus `decodeContent` (the JSON string
decoder).  Python's `json` accepts lone UTF-16 surrogate escapes and produces
unpaired surrogates, which `Char` cannot represent; the model treats them as
decode failure, and the verified input grammar excludes them. -/

def isPyWs (c : Char) : Bool :=
  c == ' ' || c == '\t' || c == '\n' || c == '\r' || c == '\x0b' || c == '\x0c'

def isJsonWs (c : Char) : Bool :=
  c == ' ' || c == '\t' || c == '\n' || c == '\r'

/-- The closing-quote scan of `_parse_string` (server.py:859-871): walk the
characters after the opening quote, jumping two positions at a backslash
(`i += 2`); at an unescaped quote return the content before it and the
remaining buffer after it; return `none` if the scan runs off the end. -/
def scanStr : List Char → Option (List Char × List Char)
  | [] => none
  | c :: rest =>
    if c = '\\' then
      match rest with
      | [] => none
      | d :: rest₂ =>
        match scanStr rest₂ with
        | some (content, after) => some (c :: d :: content, after)
        | none => none
    else if c = '"' then some ([], rest)
    else
      match scanStr rest with
      | some (content, after) => some (c :: content, after)
      | none => none

def hexVal (c : Char) : Option Nat :=
  if '0' ≤ c ∧ c ≤ '9' then some (c.toNat - '0'.toNat)
  else if 'a' ≤ c ∧ c ≤ 'f' then some (c.toNat - 'a'.toNat + 10)
  else if 'A' ≤ c ∧ c ≤ 'F' then some (c.toNat - 'A'.toNat + 10)
  else none

def hexQuad (h₁ h₂ h₃ h₄ : Char) : Option Nat :=
  match hexVal h₁, hexVal h₂, hexVal h₃, hexVal h₄ with
  | some a₁, some a₂, some a₃, some a₄ =>
      some (((a₁ * 16 + a₂) * 16 + a₃) * 16 + a₄)
  | _, _, _, _ => none

/-- The two-character JSON escapes. -/
def simpleEsc (c : Char) : Option Char :=
  if c = '"' then some '"'
  else if c = '\\' then some '\\'
  else if c = '/' then some '/'
  else if c = 'b' then some '\x08'
  else if c = 'f' then some '\x0c'
  else if c = 'n' then some '\n'
  else if c = 'r' then some '\r'
  else if c = 't' then some '\t'
  else none

/-- One `\\uXXXX` escape of a low surrogate paired with a preceding high
surrogate `n`: expects `\\uXXXX` with a low-surrogate value and combines the
pair into one scalar. -/
def decodePair (n : Nat) : List Char → Option (Char × List Char)
  | e₁ :: e₂ :: g₁ :: g₂ :: g₃ :: g₄ :: rest₄ =>
    if e₁ = '\\' ∧ e₂ = 'u' then
      match hexQuad g₁ g₂ g₃ g₄ with
      | some m =>
        if 0xDC00 ≤ m ∧ m ≤ 0xDFFF then
          some (Char.ofNat (0x10000 + (n - 0xD800) * 0x400 + (m - 0xDC00)), rest₄)
        else none
      | none => none
    else none
  | _ => none

/-- The four hex digits of a `\\u` escape and, for a high surrogate, the
mandatory paired low surrogate. -/
def decodeUni : List Char → Option (Char × List Char)
  | h₁ :: h₂ :: h₃ :: h₄ :: rest₃ =>
    match hexQuad h₁ h₂ h₃ h₄ with
    | some n =>
      if n < 0xD800 ∨ 0xE000 ≤ n then some (Char.ofNat n, rest₃)
      else if n ≤ 0xDBFF then decodePair n rest₃
      else none
    | none => none
  | _ => none

/-- Everything after a backslash: a `\\u` escape or a two-character escape. -/
def decodeEsc : List Char → Option (Char × List Char)
  | [] => none
  | d :: rest₂ =>
    if d = 'u' then decodeUni rest₂
    else
      match simpleEsc d with
      | some e => some (e, rest₂)
      | none => none

/-- Fuelled JSON string-body decoder; each decoded character consumes at
least one input character, so `length` fuel always suffices. -/
def decodeContentF : Nat → List Char → Option (List Char)
  | _, [] => some []
  | 0, _ :: _ => none
  | f + 1, c :: rest =>
    if c = '\\' then
      match decodeEsc rest with
      | some (e, rest₂) =>
        match decodeContentF f rest₂ with
        | some s => some (e :: s)
        | none => none
      | none => none
    else if c.toNat < 0x20 then none
    else
      match decodeContentF f rest with
      | some s => some (c :: s)
      | none => none

/-- JSON string-body decoding as performed by `json.loads` on the sliced
literal (server.py:867): two-character escapes, `\\uXXXX` escapes including
surrogate pairs, raw control characters rejected.  Lone surrogate escapes are
modelled as failure (see the section comment). -/
def decodeContent (content : List Char) : Option (List Char) :=
  decodeContentF content.length content

/-- Models `_parse_string` (server.py:855-873) on a buffer beginning with a
quote: scan for the closing quote, then decode the sliced literal; on either
failure the buffer is kept and nothing is returned. -/
def parseString (b : List Char) : Option (List Char × List Char) :=
  match b with
  | [] => none
  | c :: tail =>
    if c = '"' then
      match scanStr tail with
      | some (content, after) =>
        match decodeContent content with
        | some s => some (s, after)
        | none => none
      | none => none
    else none

/-- Models the consume loop of `feed` (server.py:830-852), fuelled: strip
leading whitespace; stop at end of buffer or at `]`; consume a comma (the
stripping after the comma is done by the recursive call); at a quote attempt
a string parse, emitting on success and stopping on failure; stop at any
other character.  Each consuming iteration removes at least one character, so
`length + 1` fuel always suffices. -/
def feedLoop : Nat → List Char → List (List Char) × List Char
  | 0, b => ([], b)
  | fuel + 1, b =>
    match b.dropWhile isPyWs with
    | [] => ([], [])
    | c :: rest =>
      if c = ']' then ([], c :: rest)
      else if c = ',' then feedLoop fuel rest
      else if c = '"' then
        match parseString (c :: rest) with
        | some (item, remaining) =>
          let r := feedLoop fuel remaining
          (item :: r.1, r.2)
        | none => ([], c :: rest)
      else ([], c :: rest)

def runLoop (b : List Char) : List (List Char) × List Char :=
  feedLoop (b.length + 1) b

structure StreamingJSONArrayParser where
  buffer : List Char
  in_array : Bool
  items_yielded : Nat
deriving DecidableEq

/-- Models `StreamingJSONArrayParser.__init__` (server.py:813-816). -/
def StreamingJSONArrayParser.initial : StreamingJSONArrayParser := ⟨[], false, 0⟩

/-- Models `self.buffer.find("[")` plus the slice past it (server.py:823-826). -/
def findArrayStart : List Char → Option (List Char)
  | [] => none
  | c :: rest => if c = '[' then some rest else findArrayStart rest

/-- Models `feed` (server.py:818-853): append the chunk, enter the array at
the first `[` if not yet inside, then run the consume loop; returns the newly
completed items and the successor state. -/
def StreamingJSONArrayParser.feed (p : StreamingJSONArrayParser)
    (chunk : List Char) : List (List Char) × StreamingJSONArrayParser :=
  let buf := p.buffer ++ chunk
  if p.in_array then
    let r := runLoop buf
    (r.1, ⟨r.2, true, p.items_yielded + r.1.length⟩)
  else
    match findArrayStart buf with
    | none => ([], ⟨buf, false, p.items_yielded⟩)
    | some after =>
      let r := runLoop after
      (r.1, ⟨r.2, true, p.items_yielded + r.1.length⟩)

/-- Feed a list of chunks in order, concatenating the emitted items. -/
def feedChunks (p : StreamingJSONArrayParser) :
    List (List Char) → List (List Char) × StreamingJSONArrayParser
  | [] => ([], p)
  | c :: cs =>
    let r := p.feed c
    let r₂ := feedChunks r.2 cs
    (r.1 ++ r₂.1, r₂.2)

/-! ### The JSON-array-of-strings grammar

`EncChar e c` — the character sequence `e` is one valid JSON string-literal
element decoding to the character `c`.  `EncChars e s` — `e` is a valid
string body decoding to `s`.  `ArrStart` / `ArrTail` — the document suffix
after `[` (resp. after a complete element) is a well-formed remainder of a
JSON array of strings denoting the given string list.  The grammar is defined
independently of the parser, directly from the JSON grammar. -/

def AllJsonWs (w : List Char) : Prop := ∀ c ∈ w, isJsonWs c = true

inductive EncChar : List Char → Char → Prop where
  | norm (c : Char) : c ≠ '"' → c ≠ '\\' → 0x20 ≤ c.toNat → EncChar [c] c
  | esc (d e : Char) : simpleEsc d = some e → EncChar ['\\', d] e
  | uni (h₁ h₂ h₃ h₄ : Char) (n : Nat) :
      hexQuad h₁ h₂ h₃ h₄ = some n → (n < 0xD800 ∨ 0xE000 ≤ n) →
      EncChar ['\\', 'u', h₁, h₂, h₃, h₄] (Char.ofNat n)
  | pair (h₁ h₂ h₃ h₄ g₁ g₂ g₃ g₄ : Char) (n m : Nat) :
      hexQuad h₁ h₂ h₃ h₄ = some n → hexQuad g₁ g₂ g₃ g₄ = some m →
      0xD800 ≤ n → n ≤ 0xDBFF → 0xDC00 ≤ m → m ≤ 0xDFFF →
      EncChar ['\\', 'u', h₁, h₂, h₃, h₄, '\\', 'u', g₁, g₂, g₃, g₄]
        (Char.ofNat (0x10000 + (n - 0xD800) * 0x400 + (m - 0xDC00)))

inductive EncChars : List Char → List Char → Prop where
  | nil : EncChars [] []
  | cons (e : List Char) (c : Char) (es : List Char) (cs : List Char) :
      EncChar e c → EncChars es cs → EncChars (e ++ es) (c :: cs)

inductive ArrTail : List Char → List (List Char) → Prop where
  | close (w₁ w₂ : List Char) : AllJsonWs w₁ → AllJsonWs w₂ →
      ArrTail (w₁ ++ ']' :: w₂) []
  | comma (w₁ w₂ e rest : List Char) (s : List Char) (ss : List (List Char)) :
      AllJsonWs w₁ → AllJsonWs w₂ → EncChars e s → ArrTail rest ss →
      ArrTail (w₁ ++ ',' :: (w₂ ++ '"' :: (e ++ '"' :: rest))) (s :: ss)

inductive ArrStart : List Char → List (List Char) → Prop where
  | close (w₁ w₂ : List Char) : AllJsonWs w₁ → AllJsonWs w₂ →
      ArrStart (w₁ ++ ']' :: w₂) []
  | item (w e rest : List Char) (s : List Char) (ss : List (List Char)) :
      AllJsonWs w → EncChars e s → ArrTail rest ss →
      ArrStart (w ++ '"' :: (e ++ '"' :: rest)) (s :: ss)

/-- `doc` is a syntactically valid JSON array of strings denoting `ss`:
leading whitespace, `[`, then a well-formed remainder. -/
def ValidArrayDoc (doc : List Char) (ss : List (List Char)) : Prop :=
  ∃ w rest, AllJsonWs w ∧ doc = w ++ '[' :: rest ∧ ArrStart rest ss


/-! ### Scan and fuel lemmas -/

theorem char_quote_ne_bs : ¬ ('"' : Char) = '\\' := by decide

/-- A successful scan splits the input at the closing quote. -/
theorem scanStr_eq_append : ∀ t content after,
    scanStr t = some (content, after) → t = content ++ '"' :: after := by
  have main : ∀ n t, t.length ≤ n → ∀ content after,
      scanStr t = some (content, after) → t = content ++ '"' :: after := by
    intro n
    induction n with
    | zero =>
      intro t ht content after h
      have ht0 : t = [] := by
        cases t with
        | nil => rfl
        | cons c r => simp at ht
      subst ht0
      rw [scanStr.eq_def] at h
      exact Option.noConfusion h
    | succ n ih =>
      intro t ht content after h
      cases t with
      | nil =>
        rw [scanStr.eq_def] at h
        exact Option.noConfusion h
      | cons c rest =>
        by_cases hc : c = '\\'
        · subst hc
          cases rest with
          | nil =>
            rw [scanStr.eq_def] at h
            simp only [if_true, eq_self_iff_true] at h
            exact Option.noConfusion h
          | cons d rest₂ =>
            cases hs : scanStr rest₂ with
            | none =>
              rw [scanStr.eq_def] at h
              simp only [hs, if_true, eq_self_iff_true] at h
              exact Option.noConfusion h
            | some pr =>
              obtain ⟨c₂, a₂⟩ := pr
              rw [scanStr.eq_def] at h
              simp only [hs, if_true, eq_self_iff_true, Option.some.injEq,
                Prod.mk.injEq] at h
              obtain ⟨h1, h2⟩ := h
              subst h1
              subst h2
              have hr : rest₂ = c₂ ++ '"' :: a₂ :=
                ih rest₂ (by simp at ht; omega) c₂ a₂ hs
              simp [hr]
        · by_cases hq : c = '"'
          · subst hq
            rw [scanStr.eq_def] at h
            simp only [char_quote_ne_bs, if_false, if_true, eq_self_iff_true,
              Option.some.injEq, Prod.mk.injEq] at h
            obtain ⟨h1, h2⟩ := h
            subst h1
            subst h2
            simp
          · cases hs : scanStr rest with
            | none =>
              rw [scanStr.eq_def] at h
              simp only [hc, hq, if_false, hs] at h
              exact Option.noConfusion h
            | some pr =>
              obtain ⟨c₂, a₂⟩ := pr
              rw [scanStr.eq_def] at h
              simp only [hc, hq, if_false, hs, Option.some.injEq,
                Prod.mk.injEq] at h
              obtain ⟨h1, h2⟩ := h
              subst h1
              subst h2
              have hr : rest = c₂ ++ '"' :: a₂ :=
                ih rest (by simp at ht; omega) c₂ a₂ hs
              simp [hr]
  intro t
  exact main t.length t (le_refl _)

/-- Appending more input past a successful scan leaves the scan unchanged. -/
theorem scanStr_append : ∀ t content after v,
    scanStr t = some (content, after) →
    scanStr (t ++ v) = some (content, after ++ v) := by
  have main : ∀ n t, t.length ≤ n → ∀ content after v,
      scanStr t = some (content, after) →
      scanStr (t ++ v) = some (content, after ++ v) := by
    intro n
    induction n with
    | zero =>
      intro t ht content after v h
      have ht0 : t = [] := by
        cases t with
        | nil => rfl
        | cons c r => simp at ht
      subst ht0
      rw [scanStr.eq_def] at h
      exact Option.noConfusion h
    | succ n ih =>
      intro t ht content after v h
      cases t with
      | nil =>
        rw [scanStr.eq_def] at h
        exact Option.noConfusion h
      | cons c rest =>
        by_cases hc : c = '\\'
        · subst hc
          cases rest with
          | nil =>
            rw [scanStr.eq_def] at h
            simp only [if_true, eq_self_iff_true] at h
            exact Option.noConfusion h
          | cons d rest₂ =>
            cases hs : scanStr rest₂ with
            | none =>
              rw [scanStr.eq_def] at h
              simp only [hs, if_true, eq_self_iff_true] at h
              exact Option.noConfusion h
            | some pr =>
              obtain ⟨c₂, a₂⟩ := pr
              rw [scanStr.eq_def] at h
              simp only [hs, if_true, eq_self_iff_true, Option.some.injEq,
                Prod.mk.injEq] at h
              obtain ⟨h1, h2⟩ := h
              subst h1
              subst h2
              have hv := ih rest₂ (by simp at ht; omega) c₂ a₂ v hs
              show scanStr ('\\' :: d :: (rest₂ ++ v)) = _
              rw [scanStr.eq_def]
              simp only [hv, if_true, eq_self_iff_true]
        · by_cases hq : c = '"'
          · subst hq
            rw [scanStr.eq_def] at h
            simp only [char_quote_ne_bs, if_false, if_true, eq_self_iff_true,
              Option.some.injEq, Prod.mk.injEq] at h
            obtain ⟨h1, h2⟩ := h
            subst h1
            subst h2
            show scanStr ('"' :: (rest ++ v)) = _
            rw [scanStr.eq_def]
            simp only [char_quote_ne_bs, if_false, if_true, eq_self_iff_true]
          · cases hs : scanStr rest with
            | none =>
              rw [scanStr.eq_def] at h
              simp only [hc, hq, if_false, hs] at h
              exact Option.noConfusion h
            | some pr =>
              obtain ⟨c₂, a₂⟩ := pr
              rw [scanStr.eq_def] at h
              simp only [hc, hq, if_false, hs, Option.some.injEq,
                Prod.mk.injEq] at h
              obtain ⟨h1, h2⟩ := h
              subst h1
              subst h2
              have hv := ih rest (by simp at ht; omega) c₂ a₂ v hs
              show scanStr (c :: (rest ++ v)) = _
              rw [scanStr.eq_def]
              simp only [hc, hq, if_false, hv]
  intro t
  exact main t.length t (le_refl _)

/-- A successful string parse consumes at least the two quotes. -/
theorem parseString_length (b item remaining : List Char)
    (h : parseString b = some (item, remaining)) :
    remaining.length + 2 ≤ b.length := by
  cases b with
  | nil =>
    rw [parseString.eq_def] at h
    exact Option.noConfusion h
  | cons c tail =>
    by_cases hc : c = '"'
    · subst hc
      cases hs : scanStr tail with
      | none =>
        rw [parseString.eq_def] at h
        simp only [hs, if_true, eq_self_iff_true] at h
        exact Option.noConfusion h
      | some pr =>
        obtain ⟨content, after⟩ := pr
        cases hd : decodeContent content with
        | none =>
          rw [parseString.eq_def] at h
          simp only [hs, hd, if_true, eq_self_iff_true] at h
          exact Option.noConfusion h
        | some s =>
          rw [parseString.eq_def] at h
          simp only [hs, hd, if_true, eq_self_iff_true, Option.some.injEq,
            Prod.mk.injEq] at h
          obtain ⟨h1, h2⟩ := h
          subst h1
          subst h2
          have ht := scanStr_eq_append tail content after hs
          have : tail.length = content.length + 1 + after.length := by
            rw [ht]
            simp
            omega
          simp only [List.length_cons]
          omega
    · rw [parseString.eq_def] at h
      simp only [hc, if_false] at h
      exact Option.noConfusion h

/-- Appending past a successful parse leaves the parsed item unchanged. -/
theorem parseString_append (b item remaining v : List Char)
    (h : parseString b = some (item, remaining)) :
    parseString (b ++ v) = some (item, remaining ++ v) := by
  cases b with
  | nil =>
    rw [parseString.eq_def] at h
    exact Option.noConfusion h
  | cons c tail =>
    by_cases hc : c = '"'
    · subst hc
      cases hs : scanStr tail with
      | none =>
        rw [parseString.eq_def] at h
        simp only [hs, if_true, eq_self_iff_true] at h
        exact Option.noConfusion h
      | some pr =>
        obtain ⟨content, after⟩ := pr
        cases hd : decodeContent content with
        | none =>
          rw [parseString.eq_def] at h
          simp only [hs, hd, if_true, eq_self_iff_true] at h
          exact Option.noConfusion h
        | some s =>
          rw [parseString.eq_def] at h
          simp only [hs, hd, if_true, eq_self_iff_true, Option.some.injEq,
            Prod.mk.injEq] at h
          obtain ⟨h1, h2⟩ := h
          subst h1
          subst h2
          have hsv := scanStr_append tail content after v hs
          show parseString ('"' :: (tail ++ v)) = _
          rw [parseString.eq_def]
          simp only [hsv, hd, if_true, eq_self_iff_true]
    · rw [parseString.eq_def] at h
      simp only [hc, if_false] at h
      exact Option.noConfusion h

theorem dropWhile_append_nil {p : Char → Bool} (a v : List Char)
    (h : a.dropWhile p = []) : (a ++ v).dropWhile p = v.dropWhile p := by
  induction a with
  | nil => rfl
  | cons x t ih =>
    cases hx : p x with
    | true =>
      rw [List.cons_append, List.dropWhile_cons_of_pos hx]
      rw [List.dropWhile_cons_of_pos hx] at h
      exact ih h
    | false =>
      rw [List.dropWhile_cons_of_neg (by simp [hx])] at h
      exact List.noConfusion h

theorem dropWhile_append_cons {p : Char → Bool} (a v : List Char) (c : Char)
    (r : List Char) (h : a.dropWhile p = c :: r) :
    (a ++ v).dropWhile p = c :: (r ++ v) := by
  induction a with
  | nil => exact List.noConfusion h
  | cons x t ih =>
    cases hx : p x with
    | true =>
      rw [List.cons_append, List.dropWhile_cons_of_pos hx]
      rw [List.dropWhile_cons_of_pos hx] at h
      exact ih h
    | false =>
      rw [List.dropWhile_cons_of_neg (by simp [hx])] at h
      obtain ⟨h1, h2⟩ := List.cons.inj h
      subst h1
      subst h2
      rw [List.cons_append, List.dropWhile_cons_of_neg (by simp [hx])]

theorem dropWhile_head_false {p : Char → Bool} (b : List Char) (c : Char)
    (r : List Char) (h : b.dropWhile p = c :: r) : p c = false := by
  induction b with
  | nil => exact List.noConfusion h
  | cons x t ih =>
    cases hx : p x with
    | true =>
      rw [List.dropWhile_cons_of_pos hx] at h
      exact ih h
    | false =>
      rw [List.dropWhile_cons_of_neg (by simp [hx])] at h
      obtain ⟨h1, _⟩ := List.cons.inj h
      subst h1
      exact hx

theorem dropWhile_idem {p : Char → Bool} (b : List Char) :
    (b.dropWhile p).dropWhile p = b.dropWhile p := by
  cases hd : b.dropWhile p with
  | nil => rfl
  | cons c r =>
    have := dropWhile_head_false b c r hd
    rw [List.dropWhile_cons_of_neg (by simp [this])]

theorem length_dropWhile_le_self (p : Char → Bool) :
    ∀ (b : List Char), (b.dropWhile p).length ≤ b.length := by
  intro b
  induction b with
  | nil => simp
  | cons x t ih =>
    cases hx : p x with
    | true =>
      rw [List.dropWhile_cons_of_pos hx]
      simp
      omega
    | false => rw [List.dropWhile_cons_of_neg (by simp [hx])]

/-- One-step unfolding of the fuelled loop. -/
theorem feedLoop_succ (f : Nat) (b : List Char) :
    feedLoop (f + 1) b = match b.dropWhile isPyWs with
      | [] => ([], [])
      | c :: rest =>
        if c = ']' then ([], c :: rest)
        else if c = ',' then feedLoop f rest
        else if c = '"' then
          match parseString (c :: rest) with
          | some (item, remaining) =>
              (item :: (feedLoop f remaining).1, (feedLoop f remaining).2)
          | none => ([], c :: rest)
        else ([], c :: rest) := rfl

/-- The fuel argument of `feedLoop` is irrelevant once it exceeds the buffer
length (each consuming iteration removes at least one character). -/
theorem feedLoop_congr : ∀ f₁ f₂ b, b.length < f₁ → b.length < f₂ →
    feedLoop f₁ b = feedLoop f₂ b := by
  intro f₁
  induction f₁ with
  | zero => intro f₂ b h1 _; omega
  | succ f ih =>
    intro f₂ b h1 h2
    obtain ⟨f₂', rfl⟩ : ∃ g, f₂ = g + 1 := ⟨f₂ - 1, by omega⟩
    rw [feedLoop_succ, feedLoop_succ]
    cases hd : b.dropWhile isPyWs with
    | nil => rfl
    | cons c rest =>
      have hlen : rest.length + 1 ≤ b.length := by
        have := length_dropWhile_le_self isPyWs b
        rw [hd] at this
        simpa using this
      by_cases hc : c = ']'
      · simp [hc]
      · by_cases hcm : c = ','
        · simp only [hc, hcm, if_false, if_true, eq_self_iff_true]
          exact ih f₂' rest (by omega) (by omega)
        · by_cases hq : c = '"'
          · simp only [hc, hcm, hq, if_false, if_true, eq_self_iff_true]
            cases hp : parseString ('"' :: rest) with
            | none => rfl
            | some pr =>
              obtain ⟨item, remaining⟩ := pr
              have hplen := parseString_length ('"' :: rest) item remaining hp
              simp only [List.length_cons] at hplen
              have := ih f₂' remaining (by omega) (by omega)
              simp [this]
          · simp [hc, hcm, hq]

/-- Fuel-free unfolding of the consume loop. -/
theorem runLoop_eq (b : List Char) :
    runLoop b = match b.dropWhile isPyWs with
      | [] => ([], [])
      | c :: rest =>
        if c = ']' then ([], c :: rest)
        else if c = ',' then runLoop rest
        else if c = '"' then
          match parseString (c :: rest) with
          | some (item, remaining) =>
              (item :: (runLoop remaining).1, (runLoop remaining).2)
          | none => ([], c :: rest)
        else ([], c :: rest) := by
  show feedLoop (b.length + 1) b = _
  rw [feedLoop_succ]
  cases hd : b.dropWhile isPyWs with
  | nil => rfl
  | cons c rest =>
    have hlen : rest.length + 1 ≤ b.length := by
      have := length_dropWhile_le_self isPyWs b
      rw [hd] at this
      simpa using this
    by_cases hc : c = ']'
    · simp [hc]
    · by_cases hcm : c = ','
      · simp only [hc, hcm, if_false, if_true, eq_self_iff_true]
        exact feedLoop_congr b.length (rest.length + 1) rest (by omega) (by omega)
      · by_cases hq : c = '"'
        · simp only [hc, hcm, hq, if_false, if_true, eq_self_iff_true]
          cases hp : parseString ('"' :: rest) with
          | none => rfl
          | some pr =>
            obtain ⟨item, remaining⟩ := pr
            have hplen := parseString_length ('"' :: rest) item remaining hp
            simp only [List.length_cons] at hplen
            have := feedLoop_congr b.length (remaining.length + 1) remaining
              (by omega) (by omega)
            simp [this, runLoop]
        · simp [hc, hcm, hq]

/-- The loop ignores leading whitespace. -/
theorem runLoop_dropWhile (b : List Char) :
    runLoop (b.dropWhile isPyWs) = runLoop b := by
  rw [runLoop_eq b, runLoop_eq (b.dropWhile isPyWs), dropWhile_idem]

theorem runLoop_nil : runLoop [] = ([], []) := rfl

theorem runLoop_close (rest : List Char) :
    runLoop (']' :: rest) = ([], ']' :: rest) := by
  rw [runLoop_eq, List.dropWhile_cons_of_neg (by decide)]
  dsimp only
  rw [if_pos rfl]

theorem runLoop_comma (rest : List Char) :
    runLoop (',' :: rest) = runLoop rest := by
  rw [runLoop_eq, List.dropWhile_cons_of_neg (by decide)]
  dsimp only
  rw [if_neg (by decide), if_pos rfl]

theorem runLoop_quote_some (rest item remaining : List Char)
    (hp : parseString ('"' :: rest) = some (item, remaining)) :
    runLoop ('"' :: rest) = (item :: (runLoop remaining).1, (runLoop remaining).2) := by
  rw [runLoop_eq, List.dropWhile_cons_of_neg (by decide)]
  dsimp only
  rw [if_neg (by decide), if_neg (by decide), if_pos rfl, hp]

theorem runLoop_quote_none (rest : List Char)
    (hp : parseString ('"' :: rest) = none) :
    runLoop ('"' :: rest) = ([], '"' :: rest) := by
  rw [runLoop_eq, List.dropWhile_cons_of_neg (by decide)]
  dsimp only
  rw [if_neg (by decide), if_neg (by decide), if_pos rfl, hp]

theorem runLoop_other (c : Char) (rest : List Char) (hws : isPyWs c = false)
    (h1 : ¬ c = ']') (h2 : ¬ c = ',') (h3 : ¬ c = '"') :
    runLoop (c :: rest) = ([], c :: rest) := by
  rw [runLoop_eq, List.dropWhile_cons_of_neg (by simp [hws])]
  dsimp only
  rw [if_neg h1, if_neg h2, if_neg h3]

/-- Splitting the input anywhere commutes with the loop: running on `b ++ v`
yields the items of running on `b` followed by the items of running on the
leftover of `b` extended by `v`; the final leftover is that second run's. -/
theorem runLoop_append : ∀ b v, runLoop (b ++ v)
    = ((runLoop b).1 ++ (runLoop ((runLoop b).2 ++ v)).1,
       (runLoop ((runLoop b).2 ++ v)).2) := by
  have main : ∀ n b, b.length ≤ n → ∀ v, runLoop (b ++ v)
      = ((runLoop b).1 ++ (runLoop ((runLoop b).2 ++ v)).1,
         (runLoop ((runLoop b).2 ++ v)).2) := by
    intro n
    induction n with
    | zero =>
      intro b hb v
      have hb0 : b = [] := by
        cases b with
        | nil => rfl
        | cons c r => simp at hb
      subst hb0
      rw [List.nil_append, runLoop_nil]
      simp
    | succ n ih =>
      intro b hb v
      cases hd : b.dropWhile isPyWs with
      | nil =>
        have h1 : runLoop (b ++ v) = runLoop v := by
          rw [← runLoop_dropWhile (b ++ v), dropWhile_append_nil b v hd,
            runLoop_dropWhile v]
        have h2 : runLoop b = ([], []) := by
          rw [← runLoop_dropWhile b, hd, runLoop_nil]
        rw [h1, h2]
        simp
      | cons c rest =>
        have hlen : rest.length + 1 ≤ b.length := by
          have := length_dropWhile_le_self isPyWs b
          rw [hd] at this
          simpa using this
        have hbv : runLoop (b ++ v) = runLoop (c :: (rest ++ v)) := by
          rw [← runLoop_dropWhile (b ++ v), dropWhile_append_cons b v c rest hd]
        have hb2 : runLoop b = runLoop (c :: rest) := by
          rw [← runLoop_dropWhile b, hd]
        have hcw : isPyWs c = false := dropWhile_head_false b c rest hd
        by_cases hc : c = ']'
        · subst hc
          rw [hbv, hb2, runLoop_close]
          simp [runLoop_close]
        · by_cases hcm : c = ','
          · subst hcm
            rw [hbv, hb2, runLoop_comma, runLoop_comma]
            exact ih rest (by omega) v
          · by_cases hq : c = '"'
            · subst hq
              cases hp : parseString ('"' :: rest) with
              | some pr =>
                obtain ⟨item, remaining⟩ := pr
                have hplen := parseString_length ('"' :: rest) item remaining hp
                simp only [List.length_cons] at hplen
                have hpv : parseString ('"' :: (rest ++ v)) = some (item, remaining ++ v) := by
                  have := parseString_append ('"' :: rest) item remaining v hp
                  rw [List.cons_append] at this
                  exact this
                rw [hbv, hb2, runLoop_quote_some _ _ _ hpv, runLoop_quote_some _ _ _ hp,
                  ih remaining (by omega) v]
                simp
              | none =>
                rw [hbv, hb2, runLoop_quote_none _ hp]
                simp
            · rw [hbv, hb2, runLoop_other c (rest ++ v) hcw hc hcm hq,
                runLoop_other c rest hcw hc hcm hq]
              simp [runLoop_other c (rest ++ v) hcw hc hcm hq]
  intro b
  exact main b.length b (le_refl _)

/-- The leftover buffer of a run is quiescent: running it again emits nothing. -/
theorem runLoop_self (b : List Char) :
    runLoop ((runLoop b).2) = ([], (runLoop b).2) := by
  have h := runLoop_append b []
  rw [List.append_nil] at h
  have h1 : (runLoop b).1 = (runLoop b).1 ++ (runLoop ((runLoop b).2)).1 := by
    simpa using congrArg Prod.fst h
  have h2 : (runLoop b).2 = (runLoop ((runLoop b).2)).2 := by
    simpa using congrArg Prod.snd h
  have hlen := congrArg List.length h1
  rw [List.length_append] at hlen
  have h3 : (runLoop ((runLoop b).2)).1 = [] := by
    have h0 : (runLoop ((runLoop b).2)).1.length = 0 := by omega
    exact List.length_eq_zero.mp h0
  calc runLoop ((runLoop b).2)
      = ((runLoop ((runLoop b).2)).1, (runLoop ((runLoop b).2)).2) := rfl
    _ = ([], (runLoop b).2) := by rw [h3, ← h2]

theorem findArrayStart_append_none (x y : List Char)
    (h : findArrayStart x = none) :
    findArrayStart (x ++ y) = findArrayStart y := by
  induction x with
  | nil => rfl
  | cons c t ih =>
    by_cases hc : c = '['
    · simp [findArrayStart, hc] at h
    · simp only [findArrayStart, hc, if_false] at h
      rw [List.cons_append]
      simp only [findArrayStart, hc, if_false]
      exact ih h

theorem findArrayStart_append_some (x y r : List Char)
    (h : findArrayStart x = some r) :
    findArrayStart (x ++ y) = some (r ++ y) := by
  induction x with
  | nil => simp [findArrayStart] at h
  | cons c t ih =>
    by_cases hc : c = '['
    · simp only [findArrayStart, hc, if_true, eq_self_iff_true,
        Option.some.injEq] at h
      subst h
      rw [List.cons_append]
      simp [findArrayStart, hc]
    · simp only [findArrayStart, hc, if_false] at h
      rw [List.cons_append]
      simp only [findArrayStart, hc, if_false]
      exact ih h

/-- A parser state is reachable-shaped: inside the array its buffer is a
quiescent loop leftover, outside it its buffer contains no `[`. -/
def GoodState (p : StreamingJSONArrayParser) : Prop :=
  (p.in_array = true → runLoop p.buffer = ([], p.buffer))
  ∧ (p.in_array = false → findArrayStart p.buffer = none)

theorem good_initial : GoodState StreamingJSONArrayParser.initial :=
  ⟨fun h => by simp [StreamingJSONArrayParser.initial] at h, fun _ => rfl⟩

theorem good_feed (p : StreamingJSONArrayParser) (chunk : List Char) :
    GoodState (p.feed chunk).2 := by
  unfold StreamingJSONArrayParser.feed
  cases hio : p.in_array with
  | true =>
    simp only [if_true]
    refine ⟨fun _ => ?_, fun h => by simp at h⟩
    exact runLoop_self _
  | false =>
    simp only [Bool.false_eq_true, if_false]
    cases hfa : findArrayStart (p.buffer ++ chunk) with
    | none =>
      exact ⟨fun h => by simp at h, fun _ => hfa⟩
    | some after =>
      refine ⟨fun _ => ?_, fun h => by simp at h⟩
      exact runLoop_self _

theorem feed_nil_of_good (p : StreamingJSONArrayParser) (h : GoodState p) :
    p.feed [] = ([], p) := by
  obtain ⟨buffer, in_arr, iy⟩ := p
  unfold StreamingJSONArrayParser.feed
  cases in_arr with
  | true =>
    simp only [if_true, List.append_nil]
    have := h.1 rfl
    simp only at this
    rw [this]
    simp
  | false =>
    simp only [Bool.false_eq_true, if_false, List.append_nil]
    have := h.2 rfl
    simp only at this
    rw [this]

/-- Feeding two chunks in sequence emits what feeding their concatenation
emits, ending in the same state. -/
theorem feed_append (p : StreamingJSONArrayParser) (a b : List Char) :
    p.feed (a ++ b)
      = ((p.feed a).1 ++ ((p.feed a).2.feed b).1, ((p.feed a).2.feed b).2) := by
  obtain ⟨buf₀, io, iy⟩ := p
  cases io with
  | true =>
    show (StreamingJSONArrayParser.mk buf₀ true iy).feed (a ++ b) = _
    unfold StreamingJSONArrayParser.feed
    simp only [if_true]
    rw [show buf₀ ++ (a ++ b) = (buf₀ ++ a) ++ b from (List.append_assoc _ _ _).symm,
      runLoop_append (buf₀ ++ a) b]
    simp [List.length_append, Nat.add_assoc]
  | false =>
    show (StreamingJSONArrayParser.mk buf₀ false iy).feed (a ++ b) = _
    unfold StreamingJSONArrayParser.feed
    simp only [Bool.false_eq_true, if_false]
    rw [show buf₀ ++ (a ++ b) = (buf₀ ++ a) ++ b from (List.append_assoc _ _ _).symm]
    cases hfa : findArrayStart (buf₀ ++ a) with
    | none =>
      simp only [hfa]
      cases hfb : findArrayStart ((buf₀ ++ a) ++ b) with
      | none => simp only [hfb]; rfl
      | some after => simp only [hfb]; rfl
    | some after =>
      simp only [hfa]
      rw [findArrayStart_append_some _ b after hfa]
      simp only [if_true]
      rw [runLoop_append after b]
      simp [List.length_append, Nat.add_assoc]

/-- Feeding chunks one at a time is the same as feeding the whole document. -/
theorem feedChunks_eq_feed_join (chunks : List (List Char)) :
    ∀ p, GoodState p → feedChunks p chunks = p.feed chunks.flatten := by
  induction chunks with
  | nil =>
    intro p hp
    rw [show feedChunks p [] = ([], p) from rfl]
    rw [show (List.flatten ([] : List (List Char))) = [] from rfl]
    exact (feed_nil_of_good p hp).symm
  | cons c cs ih =>
    intro p hp
    rw [show (c :: cs).flatten = c ++ cs.flatten from rfl]
    rw [feed_append p c cs.flatten]
    rw [show feedChunks p (c :: cs)
        = ((p.feed c).1 ++ (feedChunks (p.feed c).2 cs).1,
           (feedChunks (p.feed c).2 cs).2) from rfl]
    rw [ih (p.feed c).2 (good_feed p c)]

/-! ### Grammar lemmas: valid encodings scan and decode correctly -/

theorem scanStr_cons_norm (c : Char) (t : List Char) (h1 : ¬ c = '\\')
    (h2 : ¬ c = '"') :
    scanStr (c :: t) = (scanStr t).map (fun pr => (c :: pr.1, pr.2)) := by
  rw [scanStr.eq_def]
  dsimp only
  rw [if_neg h1, if_neg h2]
  cases scanStr t with
  | none => rfl
  | some pr => obtain ⟨x, y⟩ := pr; rfl

theorem scanStr_cons_esc (d : Char) (t : List Char) :
    scanStr ('\\' :: d :: t)
      = (scanStr t).map (fun pr => ('\\' :: d :: pr.1, pr.2)) := by
  rw [scanStr.eq_def]
  dsimp only
  rw [if_pos rfl]
  cases scanStr t with
  | none => rfl
  | some pr => obtain ⟨x, y⟩ := pr; rfl

theorem hexVal_ne_bs (c : Char) (a : Nat) (h : hexVal c = some a) :
    ¬ c = '\\' := by
  intro h'
  subst h'
  rw [show hexVal '\\' = none from by decide] at h
  exact Option.noConfusion h

theorem hexVal_ne_quote (c : Char) (a : Nat) (h : hexVal c = some a) :
    ¬ c = '"' := by
  intro h'
  subst h'
  rw [show hexVal '"' = none from by decide] at h
  exact Option.noConfusion h

theorem hexQuad_ne (h₁ h₂ h₃ h₄ : Char) (n : Nat)
    (h : hexQuad h₁ h₂ h₃ h₄ = some n) :
    (¬ h₁ = '\\' ∧ ¬ h₁ = '"') ∧ (¬ h₂ = '\\' ∧ ¬ h₂ = '"')
    ∧ (¬ h₃ = '\\' ∧ ¬ h₃ = '"') ∧ (¬ h₄ = '\\' ∧ ¬ h₄ = '"') := by
  unfold hexQuad at h
  cases e₁ : hexVal h₁ with
  | none => rw [e₁] at h; exact Option.noConfusion h
  | some a₁ =>
    cases e₂ : hexVal h₂ with
    | none => rw [e₁, e₂] at h; exact Option.noConfusion h
    | some a₂ =>
      cases e₃ : hexVal h₃ with
      | none => rw [e₁, e₂, e₃] at h; exact Option.noConfusion h
      | some a₃ =>
        cases e₄ : hexVal h₄ with
        | none => rw [e₁, e₂, e₃, e₄] at h; exact Option.noConfusion h
        | some a₄ =>
          exact ⟨⟨hexVal_ne_bs _ _ e₁, hexVal_ne_quote _ _ e₁⟩,
            ⟨hexVal_ne_bs _ _ e₂, hexVal_ne_quote _ _ e₂⟩,
            ⟨hexVal_ne_bs _ _ e₃, hexVal_ne_quote _ _ e₃⟩,
            ⟨hexVal_ne_bs _ _ e₄, hexVal_ne_quote _ _ e₄⟩⟩

/-- Scanning skips over one valid encoded element. -/
theorem scanStr_encChar (e : List Char) (c : Char) (he : EncChar e c)
    (t : List Char) :
    scanStr (e ++ t) = (scanStr t).map (fun pr => (e ++ pr.1, pr.2)) := by
  cases he with
  | norm c h1 h2 h3 =>
    rw [List.cons_append, List.nil_append, scanStr_cons_norm c t h2 h1]
    cases scanStr t with
    | none => rfl
    | some pr => rfl
  | esc d e h =>
    show scanStr ('\\' :: d :: t) = _
    rw [scanStr_cons_esc]
    cases scanStr t with
    | none => rfl
    | some pr => rfl
  | uni h₁ h₂ h₃ h₄ n hq hr =>
    obtain ⟨⟨b₁, q₁⟩, ⟨b₂, q₂⟩, ⟨b₃, q₃⟩, ⟨b₄, q₄⟩⟩ := hexQuad_ne _ _ _ _ _ hq
    show scanStr ('\\' :: 'u' :: h₁ :: h₂ :: h₃ :: h₄ :: t) = _
    rw [scanStr_cons_esc, scanStr_cons_norm _ _ b₁ q₁, scanStr_cons_norm _ _ b₂ q₂,
      scanStr_cons_norm _ _ b₃ q₃, scanStr_cons_norm _ _ b₄ q₄]
    cases scanStr t with
    | none => rfl
    | some pr => rfl
  | pair h₁ h₂ h₃ h₄ g₁ g₂ g₃ g₄ n m hq hg hn1 hn2 hm1 hm2 =>
    obtain ⟨⟨b₁, q₁⟩, ⟨b₂, q₂⟩, ⟨b₃, q₃⟩, ⟨b₄, q₄⟩⟩ := hexQuad_ne _ _ _ _ _ hq
    obtain ⟨⟨c₁, r₁⟩, ⟨c₂, r₂⟩, ⟨c₃, r₃⟩, ⟨c₄, r₄⟩⟩ := hexQuad_ne _ _ _ _ _ hg
    show scanStr ('\\' :: 'u' :: h₁ :: h₂ :: h₃ :: h₄ ::
      '\\' :: 'u' :: g₁ :: g₂ :: g₃ :: g₄ :: t) = _
    rw [scanStr_cons_esc, scanStr_cons_norm _ _ b₁ q₁, scanStr_cons_norm _ _ b₂ q₂,
      scanStr_cons_norm _ _ b₃ q₃, scanStr_cons_norm _ _ b₄ q₄,
      scanStr_cons_esc, scanStr_cons_norm _ _ c₁ r₁, scanStr_cons_norm _ _ c₂ r₂,
      scanStr_cons_norm _ _ c₃ r₃, scanStr_cons_norm _ _ c₄ r₄]
    cases scanStr t with
    | none => rfl
    | some pr => rfl

/-- Scanning skips over a whole valid string body. -/
theorem scanStr_encChars (e s : List Char) (he : EncChars e s) (t : List Char) :
    scanStr (e ++ t) = (scanStr t).map (fun pr => (e ++ pr.1, pr.2)) := by
  induction he with
  | nil =>
    cases ht : scanStr t with
    | none => simp [ht]
    | some pr => simp [ht]
  | cons e₁ c es cs h1 h2 ih =>
    rw [List.append_assoc, scanStr_encChar e₁ c h1 (es ++ t), ih]
    cases scanStr t with
    | none => rfl
    | some pr =>
      simp [List.append_assoc]

/-- The scan of a valid body followed by the closing quote finds exactly that
closing quote. -/
theorem scanStr_of_enc (e s : List Char) (he : EncChars e s) (rest : List Char) :
    scanStr (e ++ '"' :: rest) = some (e, rest) := by
  rw [scanStr_encChars e s he ('"' :: rest)]
  rw [show scanStr ('"' :: rest) = some ([], rest) from by
    rw [scanStr.eq_def]
    dsimp only
    rw [if_neg (by decide), if_pos rfl]]
  simp

theorem decodePair_shrink (n : Nat) (l : List Char) (ch : Char) (r : List Char)
    (h : decodePair n l = some (ch, r)) : r.length + 6 ≤ l.length := by
  match l with
  | [] => exact Option.noConfusion h
  | [a] => exact Option.noConfusion h
  | [a, b] => exact Option.noConfusion h
  | [a, b, c] => exact Option.noConfusion h
  | [a, b, c, d] => exact Option.noConfusion h
  | [a, b, c, d, f] => exact Option.noConfusion h
  | a :: b :: c :: d :: f :: g :: rest =>
    rw [decodePair.eq_def] at h
    dsimp only at h
    by_cases hab : a = '\\' ∧ b = 'u'
    · rw [if_pos hab] at h
      cases hq : hexQuad c d f g with
      | none => rw [hq] at h; exact Option.noConfusion h
      | some m =>
        rw [hq] at h
        dsimp only at h
        by_cases hm : 0xDC00 ≤ m ∧ m ≤ 0xDFFF
        · rw [if_pos hm] at h
          simp only [Option.some.injEq, Prod.mk.injEq] at h
          obtain ⟨h1, h2⟩ := h
          subst h2
          simp
        · rw [if_neg hm] at h; exact Option.noConfusion h
    · rw [if_neg hab] at h; exact Option.noConfusion h

theorem decodeUni_shrink (l : List Char) (ch : Char) (r : List Char)
    (h : decodeUni l = some (ch, r)) : r.length + 4 ≤ l.length := by
  match l with
  | [] => exact Option.noConfusion h
  | [a] => exact Option.noConfusion h
  | [a, b] => exact Option.noConfusion h
  | [a, b, c] => exact Option.noConfusion h
  | a :: b :: c :: d :: rest =>
    rw [decodeUni.eq_def] at h
    dsimp only at h
    cases hq : hexQuad a b c d with
    | none => rw [hq] at h; exact Option.noConfusion h
    | some m =>
      rw [hq] at h
      dsimp only at h
      by_cases h1 : m < 0xD800 ∨ 0xE000 ≤ m
      · rw [if_pos h1] at h
        simp only [Option.some.injEq, Prod.mk.injEq] at h
        obtain ⟨_, h2⟩ := h
        subst h2
        simp
      · rw [if_neg h1] at h
        by_cases h2 : m ≤ 0xDBFF
        · rw [if_pos h2] at h
          have := decodePair_shrink m rest ch r h
          simp
          omega
        · rw [if_neg h2] at h; exact Option.noConfusion h

theorem decodeEsc_shrink (l : List Char) (ch : Char) (r : List Char)
    (h : decodeEsc l = some (ch, r)) : r.length + 1 ≤ l.length := by
  match l with
  | [] => exact Option.noConfusion h
  | d :: rest₂ =>
    rw [decodeEsc.eq_def] at h
    dsimp only at h
    by_cases hd : d = 'u'
    · rw [if_pos hd] at h
      have := decodeUni_shrink rest₂ ch r h
      simp
      omega
    · rw [if_neg hd] at h
      cases hs : simpleEsc d with
      | none => rw [hs] at h; exact Option.noConfusion h
      | some e =>
        rw [hs] at h
        simp only [Option.some.injEq, Prod.mk.injEq] at h
        obtain ⟨_, h2⟩ := h
        subst h2
        simp

/-- One-step unfolding of the fuelled decoder. -/
theorem decodeContentF_succ (f : Nat) (c : Char) (rest : List Char) :
    decodeContentF (f + 1) (c :: rest)
      = (if c = '\\' then
          match decodeEsc rest with
          | some (e, rest₂) =>
            match decodeContentF f rest₂ with
            | some s => some (e :: s)
            | none => none
          | none => none
        else if c.toNat < 0x20 then none
        else
          match decodeContentF f rest with
          | some s => some (c :: s)
          | none => none) := rfl

theorem decodeContentF_nil (f : Nat) : decodeContentF f [] = some [] := by
  cases f with
  | zero => rfl
  | succ g => rfl

theorem decodeContentF_congr : ∀ f₁ f₂ b, b.length ≤ f₁ → b.length ≤ f₂ →
    decodeContentF f₁ b = decodeContentF f₂ b := by
  intro f₁
  induction f₁ with
  | zero =>
    intro f₂ b h1 h2
    have hb : b = [] := by
      cases b with
      | nil => rfl
      | cons c r => simp at h1
    subst hb
    rw [decodeContentF_nil, decodeContentF_nil]
  | succ f ih =>
    intro f₂ b h1 h2
    cases b with
    | nil => rw [decodeContentF_nil, decodeContentF_nil]
    | cons c rest =>
      obtain ⟨f₂', rfl⟩ : ∃ g, f₂ = g + 1 := ⟨f₂ - 1, by simp at h2; omega⟩
      rw [decodeContentF_succ, decodeContentF_succ]
      simp only [List.length_cons] at h1 h2
      by_cases hc : c = '\\'
      · rw [if_pos hc, if_pos hc]
        cases he : decodeEsc rest with
        | none => rfl
        | some pr =>
          obtain ⟨e, rest₂⟩ := pr
          have hsh := decodeEsc_shrink rest e rest₂ he
          dsimp only
          rw [ih f₂' rest₂ (by omega) (by omega)]
      · rw [if_neg hc, if_neg hc]
        by_cases hctl : c.toNat < 0x20
        · rw [if_pos hctl, if_pos hctl]
        · rw [if_neg hctl, if_neg hctl, ih f₂' rest (by omega) (by omega)]

theorem decodeEsc_simple (d e : Char) (rest : List Char)
    (hd : simpleEsc d = some e) :
    decodeEsc (d :: rest) = some (e, rest) := by
  have hdu : ¬ d = 'u' := by
    intro h'
    subst h'
    rw [show simpleEsc 'u' = none from by decide] at hd
    exact Option.noConfusion hd
  rw [decodeEsc.eq_def]
  dsimp only
  rw [if_neg hdu, hd]

theorem decodeEsc_uni (h₁ h₂ h₃ h₄ : Char) (n : Nat) (rest : List Char)
    (hq : hexQuad h₁ h₂ h₃ h₄ = some n) (hr : n < 0xD800 ∨ 0xE000 ≤ n) :
    decodeEsc ('u' :: h₁ :: h₂ :: h₃ :: h₄ :: rest) = some (Char.ofNat n, rest) := by
  rw [decodeEsc.eq_def]
  dsimp only
  rw [if_pos rfl, decodeUni.eq_def]
  dsimp only
  rw [hq]
  dsimp only
  rw [if_pos hr]

theorem decodeEsc_pair (h₁ h₂ h₃ h₄ g₁ g₂ g₃ g₄ : Char) (n m : Nat)
    (rest : List Char)
    (hq : hexQuad h₁ h₂ h₃ h₄ = some n) (hg : hexQuad g₁ g₂ g₃ g₄ = some m)
    (hn1 : 0xD800 ≤ n) (hn2 : n ≤ 0xDBFF) (hm1 : 0xDC00 ≤ m) (hm2 : m ≤ 0xDFFF) :
    decodeEsc ('u' :: h₁ :: h₂ :: h₃ :: h₄ :: '\\' :: 'u' :: g₁ :: g₂ :: g₃ :: g₄ :: rest)
      = some (Char.ofNat (0x10000 + (n - 0xD800) * 0x400 + (m - 0xDC00)), rest) := by
  rw [decodeEsc.eq_def]
  dsimp only
  rw [if_pos rfl, decodeUni.eq_def]
  dsimp only
  rw [hq]
  dsimp only
  rw [if_neg (by omega : ¬ (n < 0xD800 ∨ 0xE000 ≤ n)), if_pos hn2,
    decodePair.eq_def]
  dsimp only
  rw [if_pos ⟨rfl, rfl⟩, hg]
  dsimp only
  rw [if_pos ⟨hm1, hm2⟩]

/-- A valid string body decodes to its denoted string, with any sufficient
fuel. -/
theorem decodeContentF_of_enc (e s : List Char) (he : EncChars e s) :
    ∀ f, e.length ≤ f → decodeContentF f e = some s := by
  induction he with
  | nil => intro f _; exact decodeContentF_nil f
  | cons e₁ c es cs h1 h2 ih =>
    cases h1 with
    | norm c hq hb hctl =>
      intro f hf
      simp only [List.cons_append, List.nil_append, List.length_cons] at hf ⊢
      obtain ⟨g, rfl⟩ : ∃ g, f = g + 1 := ⟨f - 1, by omega⟩
      rw [decodeContentF_succ, if_neg hb,
        if_neg (by omega : ¬ c.toNat < 0x20), ih g (by omega)]
    | esc d ech hd =>
      intro f hf
      simp only [List.cons_append, List.nil_append, List.length_cons] at hf ⊢
      obtain ⟨g, rfl⟩ : ∃ g, f = g + 1 := ⟨f - 1, by omega⟩
      rw [decodeContentF_succ, if_pos rfl, decodeEsc_simple d c es hd]
      dsimp only
      rw [ih g (by omega)]
    | uni h₁ h₂ h₃ h₄ n hq hr =>
      intro f hf
      simp only [List.cons_append, List.nil_append, List.length_cons] at hf ⊢
      obtain ⟨g, rfl⟩ : ∃ g, f = g + 1 := ⟨f - 1, by omega⟩
      rw [decodeContentF_succ, if_pos rfl, decodeEsc_uni h₁ h₂ h₃ h₄ n es hq hr]
      dsimp only
      rw [ih g (by omega)]
    | pair h₁ h₂ h₃ h₄ g₁ g₂ g₃ g₄ n m hq hg hn1 hn2 hm1 hm2 =>
      intro f hf
      simp only [List.cons_append, List.nil_append, List.length_cons] at hf ⊢
      obtain ⟨g, rfl⟩ : ∃ g, f = g + 1 := ⟨f - 1, by omega⟩
      rw [decodeContentF_succ, if_pos rfl,
        decodeEsc_pair h₁ h₂ h₃ h₄ g₁ g₂ g₃ g₄ n m es hq hg hn1 hn2 hm1 hm2]
      dsimp only
      rw [ih g (by omega)]

/-- A valid string body decodes to its denoted string. -/
theorem decodeContent_of_enc (e s : List Char) (he : EncChars e s) :
    decodeContent e = some s :=
  decodeContentF_of_enc e s he e.length (le_refl _)

/-- A complete valid string literal parses to its denoted string. -/
theorem parseString_of_enc (e s : List Char) (he : EncChars e s)
    (rest : List Char) :
    parseString ('"' :: (e ++ '"' :: rest)) = some (s, rest) := by
  rw [parseString.eq_def]
  simp [scanStr_of_enc e s he rest, decodeContent_of_enc e s he]

/-! ### Single-shot correctness on the grammar, and the main theorem -/

theorem isPyWs_of_isJsonWs (c : Char) (h : isJsonWs c = true) :
    isPyWs c = true := by
  simp only [isJsonWs, Bool.or_eq_true, beq_iff_eq] at h
  rcases h with ((rfl | rfl) | rfl) | rfl <;> decide

theorem isJsonWs_ne_lbracket (c : Char) (h : isJsonWs c = true) : ¬ c = '[' := by
  simp only [isJsonWs, Bool.or_eq_true, beq_iff_eq] at h
  rcases h with ((rfl | rfl) | rfl) | rfl <;> decide

theorem dropWhile_allJsonWs (w x : List Char) (hw : AllJsonWs w) :
    (w ++ x).dropWhile isPyWs = x.dropWhile isPyWs := by
  induction w with
  | nil => rfl
  | cons c t ih =>
    have hc : isPyWs c = true :=
      isPyWs_of_isJsonWs c (hw c (List.mem_cons_self c t))
    rw [List.cons_append, List.dropWhile_cons_of_pos hc]
    exact ih (fun d hd => hw d (List.mem_cons_of_mem c hd))

/-- The loop skips a leading run of JSON whitespace. -/
theorem runLoop_ws (w x : List Char) (hw : AllJsonWs w) :
    runLoop (w ++ x) = runLoop x := by
  rw [← runLoop_dropWhile (w ++ x), dropWhile_allJsonWs w x hw, runLoop_dropWhile x]

/-- On a well-formed remainder after a complete element, the loop emits
exactly the denoted strings. -/
theorem runLoop_arrTail (b : List Char) (ss : List (List Char))
    (h : ArrTail b ss) : (runLoop b).1 = ss := by
  induction h with
  | close w₁ w₂ hw₁ hw₂ =>
    rw [runLoop_ws w₁ _ hw₁, runLoop_close]
  | comma w₁ w₂ e rest s ss hw₁ hw₂ he ht ih =>
    rw [runLoop_ws w₁ _ hw₁, runLoop_comma, runLoop_ws w₂ _ hw₂,
      runLoop_quote_some _ s rest (parseString_of_enc e s he rest)]
    simp [ih]

/-- On a well-formed remainder after `[`, the loop emits exactly the denoted
strings. -/
theorem runLoop_arrStart (b : List Char) (ss : List (List Char))
    (h : ArrStart b ss) : (runLoop b).1 = ss := by
  cases h with
  | close w₁ w₂ hw₁ hw₂ =>
    rw [runLoop_ws w₁ _ hw₁, runLoop_close]
  | item w e rest s ss hw he ht =>
    rw [runLoop_ws w _ hw,
      runLoop_quote_some _ s rest (parseString_of_enc e s he rest)]
    simp [runLoop_arrTail rest ss ht]

theorem findArrayStart_ws (w r : List Char) (hw : AllJsonWs w) :
    findArrayStart (w ++ '[' :: r) = some r := by
  induction w with
  | nil => simp [findArrayStart]
  | cons c t ih =>
    have hc : ¬ c = '[' :=
      isJsonWs_ne_lbracket c (hw c (List.mem_cons_self c t))
    rw [List.cons_append]
    simp only [findArrayStart, hc, if_false]
    exact ih (fun d hd => hw d (List.mem_cons_of_mem c hd))

/-- Feeding a whole valid document to a fresh parser emits exactly the
denoted strings. -/
theorem feed_initial_valid (doc : List Char) (ss : List (List Char))
    (h : ValidArrayDoc doc ss) :
    (StreamingJSONArrayParser.initial.feed doc).1 = ss := by
  obtain ⟨w, rest, hw, rfl, hs⟩ := h
  show ((StreamingJSONArrayParser.mk [] false 0).feed (w ++ '[' :: rest)).1 = ss
  unfold StreamingJSONArrayParser.feed
  simp only [Bool.false_eq_true, if_false, List.nil_append]
  rw [findArrayStart_ws w rest hw]
  exact runLoop_arrStart rest ss hs

/-- C2.  For every syntactically valid JSON array of `N` strings and every
chunking of its text, feeding the chunks in order to a fresh
`StreamingJSONArrayParser` emits exactly those `N` strings, in array order,
each exactly once across all `feed` calls, with JSON escapes decoded. -/
theorem streaming_parser_emits_all_strings (chunks : List (List Char))
    (ss : List (List Char)) (h : ValidArrayDoc chunks.flatten ss) :
    (feedChunks StreamingJSONArrayParser.initial chunks).1 = ss := by
  rw [feedChunks_eq_feed_join chunks StreamingJSONArrayParser.initial good_initial]
  exact feed_initial_valid chunks.flatten ss h

theorem allJsonWs_nil : AllJsonWs [] := by
  intro c hc
  cases hc

/-- Witness for `streaming_parser_emits_all_strings`: the document
`["a\n","b"]` split into three chunks, one boundary inside the `\n` escape,
emits exactly the two decoded strings. -/
theorem streaming_parser_emits_all_strings_witness :
    (feedChunks StreamingJSONArrayParser.initial
      [['['], ['"', 'a', '\\'], ['n', '"', ',', '"', 'b', '"', ']']]).1
      = [['a', '\n'], ['b']] :=
  streaming_parser_emits_all_strings
    [['['], ['"', 'a', '\\'], ['n', '"', ',', '"', 'b', '"', ']']]
    [['a', '\n'], ['b']]
    ⟨[], ['"', 'a', '\\', 'n', '"', ',', '"', 'b', '"', ']'],
     allJsonWs_nil, rfl,
     ArrStart.item [] ['a', '\\', 'n'] [',', '"', 'b', '"', ']'] ['a', '\n'] [['b']]
       allJsonWs_nil
       (EncChars.cons ['a'] 'a' ['\\', 'n'] ['\n']
         (EncChar.norm 'a' (by decide) (by decide) (by decide))
         (EncChars.cons ['\\', 'n'] '\n' [] []
           (EncChar.esc 'n' '\n' (by decide))
           EncChars.nil))
       (ArrTail.comma [] [] ['b'] [']'] ['b'] []
         allJsonWs_nil allJsonWs_nil
         (EncChars.cons ['b'] 'b' [] []
           (EncChar.norm 'b' (by decide) (by decide) (by decide))
           EncChars.nil)
         (ArrTail.close [] [] allJsonWs_nil allJsonWs_nil))⟩
